import Mathlib

/-
Verification of the Word-HTML repair engine of the WordWebNav repository.

The embedding below models, in Lean 4, the code of
createwebpage/fix_word_html.py and the table-of-contents extraction of
createwebpage/construct_html_sections.py.  Strings held by text nodes are
the decoded Unicode strings that BeautifulSoup stores (the nbsp entity is
the character U+00A0).  The specific regular expressions appearing in the
Python source are modelled by dedicated matching functions; each function
documents the regex it implements and follows the scanning semantics of
the Python re module (left-to-right scan, MULTILINE anchors, greedy
character classes, matches consumed without overlap).
-/

namespace WWN

/-- ASCII whitespace characters.  These are the regex class backslash-s
characters that the BeautifulSoup html formatter leaves unencoded, hence the
whitespace characters that can occur in serialized span contents. -/
def isWsChar (c : Char) : Bool :=
  c = ' ' || c = '\t' || c = '\n' || c = '\r' || c = Char.ofNat 11 || c = Char.ofNat 12

/-- Non-breaking space character, the decoded form of the nbsp entity. -/
def nbspChar : Char := Char.ofNat 160

/-- Python regex class backslash-s as applied to decoded document text:
ASCII whitespace plus the non-breaking space. -/
def isPyWs (c : Char) : Bool := isWsChar c || c = nbspChar

/-- Character class for the regex fragment matching dots and digits. -/
def isDigitDot (c : Char) : Bool := c = '.' || ('0' ≤ c && c ≤ '9')

/-- Character class for the regex fragment matching ASCII letters. -/
def isAsciiLetter (c : Char) : Bool := ('a' ≤ c && c ≤ 'z') || ('A' ≤ c && c ≤ 'Z')

/-- Strips the first list as a literal pattern from the front of the second
list, returning the remainder on success. -/
def stripPre : List Char → List Char → Option (List Char)
  | [], l => some l
  | _ :: _, [] => none
  | p :: ps, c :: cs => if p = c then stripPre ps cs else none

/-- Literal substring containment, the model of the Python in-operator and of
an unanchored literal regex search. -/
def listContainsSub (pat l : List Char) : Bool :=
  match l with
  | [] => pat.isEmpty
  | _ :: cs => (stripPre pat l).isSome || listContainsSub pat cs

/-- String-level wrapper for literal substring containment. -/
def strContainsSub (pat s : String) : Bool := listContainsSub pat.data s.data

/-- Models the regex tail fragment matching end-of-line or a semicolon under
MULTILINE: at this point the match may close at end of input, right before a
newline, or by consuming a semicolon. -/
def termAfter : List Char → Bool
  | [] => true
  | c :: _ => c = '\n' || c = ';'

/-- Tests whether the literal token followed by an admissible terminator
starts at this position. -/
def tbHit (tok l : List Char) : Bool :=
  match stripPre tok l with
  | some r => termAfter r
  | none => false

/-- Scanner for the style-token search regex: caret-or-semicolon, then the
literal token, then dollar-or-semicolon, searched under MULTILINE.  The
boolean argument records whether the current position is a line start. -/
def tbGo (tok : List Char) : Bool → List Char → Bool
  | _, [] => false
  | b, c :: cs =>
    (b && tbHit tok (c :: cs)) || (c = ';' && tbHit tok cs) || tbGo tok (c = '\n') cs

/-- Models re.search of the pattern anchoring the literal token at style-token
boundaries (the pattern used for the font-family test and the color:white
selection in fix_word_html.py), under re.M. -/
def tokenBoundarySearch (tok s : String) : Bool := tbGo tok.data true s.data

/-- Text content consisting of whitespace and at least one non-breaking
space.  A span whose decoded serialization matches the spaces-only regex of
test_if_span_with_only_spaces has exactly such a single text child: the html
formatter encodes U+00A0 as the nbsp entity and leaves ASCII whitespace
unencoded, and no other character produces either. -/
def nbspOnlyText (s : String) : Bool :=
  s.data.all (fun c => isWsChar c || c = nbspChar) && s.data.any (fun c => c = nbspChar)

/-- Per-line matcher for the ordered-list symbol regex: optional opening
bracket, one or more non-whitespace characters, then one of the three
closing marks.  The bracket and the closing marks are themselves
non-whitespace, so a line matches exactly when it has length at least two,
contains no whitespace, and ends in a closing mark. -/
def symbolLineOk (l : List Char) : Bool :=
  decide (2 ≤ l.length) && l.all (fun c => !(isPyWs c)) &&
  (match l.getLast? with
   | some c => c = ')' || c = '.' || c = ']'
   | none => false)

/-- Split of a character list at its newlines, the model of line
decomposition under re.M (same semantics as splitting the string on the
newline separator). -/
def splitNl : List Char → List (List Char)
  | [] => [[]]
  | c :: cs =>
    if c = '\n' then [] :: splitNl cs
    else
      match splitNl cs with
      | [] => [[c]]
      | t :: ts => (c :: t) :: ts

/-- Models re.search under re.M of the list-item symbol pattern of the
ordered-list pass: some line of the text matches it entirely. -/
def symbolMatch (s : String) : Bool := (splitNl s.data).any (fun t => symbolLineOk t)

/-- Class names accepted by the candidate-paragraph class regex in
fix_word_html.py. -/
def candidateClassNames : List String :=
  ["MsoListParagraph", "MsoListParagraphCxSpFirst", "MsoListParagraphCxSpMiddle",
   "MsoListParagraphCxSpLast", "MsoNormal", "MsoBodyText"]

/-- Models re.search under re.M of the candidate-paragraph class regex: some
line of the class value equals one of the accepted names. -/
def classNameMatch (c : String) : Bool :=
  (splitNl c.data).any (fun t => candidateClassNames.any (fun n => n.data = t))

/-- Models re.search under re.M of the table-of-contents class regex: some
line equals the TOC style name followed by one digit from one to nine. -/
def msoTocClassMatch (c : String) : Bool :=
  (splitNl c.data).any (fun t =>
    match stripPre "MsoToc".data t with
    | some [d] => '1' ≤ d && d ≤ '9'
    | _ => false)

/-- Models re.search under re.M of the whitespace-only pattern used on the
text of a leading paragraph in construct_html_sections.py: some line consists
of whitespace only (the decoded nbsp included). -/
def wsStringSearch (s : String) : Bool := (splitNl s.data).any (fun t => t.all isPyWs)

/-- Scanner for the newline-run pattern under re.M: a position that is a
line start holds a newline whose successor is a newline or the end. -/
def nlRunGo : Bool → List Char → Bool
  | _, [] => false
  | b, c :: cs =>
    (b && c = '\n' && (match cs with | [] => true | d :: _ => d = '\n')) || nlRunGo (c = '\n') cs

/-- Models re.search under re.M of the newline-run pattern used on the text
node following a TOC paragraph. -/
def nlRunSearch (s : String) : Bool := nlRunGo true s.data

/-- Literal part of the text-indent declaration patterns. -/
def tiLit : List Char := "text-indent:".data

/-- Greedy parse of the text-indent value: optional sign, one or more dots
and digits, one or more letters.  Returns the sign-and-digits part, the
letters part, and the remainder.  The three character classes are disjoint
from each other and from every admissible follow-up character, so greedy
parsing without backtracking agrees with the regex semantics. -/
def tiValueParts (l : List Char) : Option (List Char × List Char × List Char) :=
  let sr : List Char × List Char :=
    match l with
    | c :: cs => if c = '+' || c = '-' then ([c], cs) else ([], l)
    | [] => ([], l)
  let ds := sr.2.takeWhile isDigitDot
  let r2 := sr.2.dropWhile isDigitDot
  if ds.isEmpty then none
  else
    let ls := r2.takeWhile isAsciiLetter
    let r3 := r2.dropWhile isAsciiLetter
    if ls.isEmpty then none else some (sr.1 ++ ds, ls, r3)

/-- Match attempt, at one position, of the text-indent search regex of the
ordered-list pass (group one: the literal with sign and digits; group two:
the unit letters), with its non-capturing terminator. -/
def tiSearchAt (l : List Char) : Option (List Char × List Char) :=
  match stripPre tiLit l with
  | none => none
  | some r =>
    match tiValueParts r with
    | none => none
    | some (sd, ls, rest) => if termAfter rest then some (tiLit ++ sd, ls) else none

/-- Scanner returning the groups of the first match of the text-indent
search regex, under re.M.  At every position the caret alternative is tried
before the semicolon alternative, as in the Python pattern. -/
def tiSearchGo : Bool → List Char → Option (List Char × List Char)
  | _, [] => none
  | b, c :: cs =>
    match (if b then tiSearchAt (c :: cs) else none) with
    | some g => some g
    | none =>
      match (if c = ';' then tiSearchAt cs else none) with
      | some g => some g
      | none => tiSearchGo (c = '\n') cs

/-- Models re.search under re.M of the text-indent declaration test of the
ordered-list pass, returning the two captured groups of the first match. -/
def tiSearch (s : String) : Option (String × String) :=
  match tiSearchGo true s.data with
  | some (g1, g2) => some (String.mk g1, String.mk g2)
  | none => none

/-- Match attempt, at one position, of the text-indent substitution regex.
Returns whether the third group captured a semicolon, and the remainder of
the input after the match.  Under re.M a dollar right before a newline
closes the match without consuming the newline. -/
def tiSubMatchAt (l : List Char) : Option (Bool × List Char) :=
  match stripPre tiLit l with
  | none => none
  | some r =>
    match tiValueParts r with
    | none => none
    | some (_, _, rest) =>
      match rest with
      | [] => some (false, [])
      | c :: cs =>
        if c = ';' then some (true, cs)
        else if c = '\n' then some (false, c :: cs) else none

/-- Replacement written by the text-indent substitution for groups one and
two, before the third group is appended. -/
def tiRepl : List Char := "text-indent:-.25in".data

/-- Scanner of re.subn for the text-indent substitution.  The fuel argument
is initialized with the input length; every step consumes at least one
character, so the fuel never runs out. -/
def tiSubnGo : Nat → Bool → List Char → List Char × Nat
  | 0, _, l => (l, 0)
  | Nat.succ _, _, [] => ([], 0)
  | Nat.succ n, b, c :: cs =>
    match (if b then tiSubMatchAt (c :: cs) else none) with
    | some (semi, rest) =>
      let r := tiSubnGo n false rest
      (tiRepl ++ (if semi then ';' :: r.1 else r.1), r.2 + 1)
    | none =>
      match (if c = ';' then tiSubMatchAt cs else none) with
      | some (semi, rest) =>
        let r := tiSubnGo n false rest
        (';' :: (tiRepl ++ (if semi then ';' :: r.1 else r.1)), r.2 + 1)
      | none =>
        let r := tiSubnGo n (c = '\n') cs
        (c :: r.1, r.2)

/-- Models re.subn of the text-indent rewrite of the ordered-list pass,
returning the new style string and the number of substitutions. -/
def tiSubn (s : String) : String × Nat :=
  let r := tiSubnGo s.data.length true s.data
  (String.mk r.1, r.2)

/-- Literal of the color:white token. -/
def cwLit : List Char := "color:white".data

/-- Match attempt, at one position, of the color:white removal regex,
returning the remainder after the match.  The matched region, deleted by
the substitution, includes a leading semicolon when the boundary consumed
one and a trailing semicolon when the terminator consumed one. -/
def cwMatchAt (l : List Char) : Option (List Char) :=
  match stripPre cwLit l with
  | none => none
  | some r =>
    match r with
    | [] => some []
    | c :: cs => if c = ';' then some cs else if c = '\n' then some (c :: cs) else none

/-- Scanner of re.subn for the color:white removal, with fuel as in
tiSubnGo. -/
def cwSubnGo : Nat → Bool → List Char → List Char × Nat
  | 0, _, l => (l, 0)
  | Nat.succ _, _, [] => ([], 0)
  | Nat.succ n, b, c :: cs =>
    match (if b then cwMatchAt (c :: cs) else none) with
    | some rest =>
      let r := cwSubnGo n false rest
      (r.1, r.2 + 1)
    | none =>
      match (if c = ';' then cwMatchAt cs else none) with
      | some rest =>
        let r := cwSubnGo n false rest
        (r.1, r.2 + 1)
      | none =>
        let r := cwSubnGo n (c = '\n') cs
        (c :: r.1, r.2)

/-- Models re.subn of the color:white removal in the white-text pass,
returning the new style string and the number of substitutions.

Note on the deleted region: in the removal pattern the whole match is the
single group and the replacement is empty, so a leading semicolon consumed
by the boundary alternative is deleted together with the token. -/
def cwSubn (s : String) : String × Nat :=
  let r := cwSubnGo s.data.length true s.data
  (String.mk r.1, r.2)

/-- Replacement of a literal nonempty pattern, scanning left to right
without overlap, counting substitutions; fuel as in tiSubnGo. -/
def subnLitGo (p0 : Char) (ps rep : List Char) : Nat → List Char → List Char × Nat
  | 0, l => (l, 0)
  | Nat.succ _, [] => ([], 0)
  | Nat.succ n, c :: cs =>
    if c = p0 then
      match stripPre ps cs with
      | some rest =>
        let r := subnLitGo p0 ps rep n rest
        (rep ++ r.1, r.2 + 1)
      | none =>
        let r := subnLitGo p0 ps rep n cs
        (c :: r.1, r.2)
    else
      let r := subnLitGo p0 ps rep n cs
      (c :: r.1, r.2)

/-- Interleaving used by re.subn with an empty pattern: the replacement is
inserted at every position. -/
def interAll (rep : List Char) : List Char → List Char
  | [] => rep
  | c :: cs => rep ++ c :: interAll rep cs

/-- Models re.subn with a literal pattern, as used by the raw-marker
stripping loop of fix_word_html.py (the encode strings of the bug-fix
descriptors contain no regex metacharacters). -/
def subnLit (pat rep s : String) : String × Nat :=
  match pat.data with
  | [] => (String.mk (interAll rep.data s.data), s.data.length + 1)
  | p0 :: ps =>
    let r := subnLitGo p0 ps rep.data s.data.length s.data
    (String.mk r.1, r.2)

/-
Document tree model.  BeautifulSoup stores a parsed document as a tree of
Tag and NavigableString objects; the class attribute of a tag is a list of
names, every other attribute is a string.  Positions in a tree are
identified by paths of child indices, which model object identity: the
Python code compares elements with the is-operator, and two live elements
are identical exactly when they sit at the same position.
-/

/-- Attribute values as stored by BeautifulSoup: the class attribute holds a
list of names, other attributes hold strings. -/
inductive AttrVal where
  | str (s : String)
  | multi (l : List String)
deriving DecidableEq, Repr

/-- Document tree nodes: a text node holds the decoded string of a
NavigableString, an element node holds the tag name, the attribute list in
document order, and the child nodes. -/
inductive Node where
  | text (s : String)
  | elem (tag : String) (attrs : List (String × AttrVal)) (children : List Node)
deriving Repr

mutual

/-- Decidable equality of nodes. -/
def nodeDecEq : (a b : Node) → Decidable (a = b)
  | .text s, .text t =>
    match decEq s t with
    | isTrue h => isTrue (by rw [h])
    | isFalse h => isFalse (by intro hh; cases hh; exact h rfl)
  | .text _, .elem _ _ _ => isFalse (by intro hh; cases hh)
  | .elem _ _ _, .text _ => isFalse (by intro hh; cases hh)
  | .elem t1 a1 c1, .elem t2 a2 c2 =>
    match decEq t1 t2 with
    | isFalse h => isFalse (by intro hh; cases hh; exact h rfl)
    | isTrue h1 =>
      match decEq a1 a2 with
      | isFalse h => isFalse (by intro hh; cases hh; exact h rfl)
      | isTrue h2 =>
        match nodeListDecEq c1 c2 with
        | isFalse h => isFalse (by intro hh; cases hh; exact h rfl)
        | isTrue h3 => isTrue (by rw [h1, h2, h3])

/-- Decidable equality of node lists. -/
def nodeListDecEq : (a b : List Node) → Decidable (a = b)
  | [], [] => isTrue rfl
  | [], _ :: _ => isFalse (by intro hh; cases hh)
  | _ :: _, [] => isFalse (by intro hh; cases hh)
  | a :: as, b :: bs =>
    match nodeDecEq a b with
    | isFalse h => isFalse (by intro hh; cases hh; exact h rfl)
    | isTrue h1 =>
      match nodeListDecEq as bs with
      | isFalse h => isFalse (by intro hh; cases hh; exact h rfl)
      | isTrue h2 => isTrue (by rw [h1, h2])

end

instance : DecidableEq Node := nodeDecEq

/-- Path of child indices leading from a fragment to a node. -/
abbrev Path := List Nat

/-- Looks up an attribute by name. -/
def getAttr (attrs : List (String × AttrVal)) (k : String) : Option AttrVal :=
  match attrs.find? (fun a => a.1 = k) with
  | some a => some a.2
  | none => none

/-- Tests attribute presence. -/
def hasAttr (attrs : List (String × AttrVal)) (k : String) : Bool := (getAttr attrs k).isSome

/-- Replaces the value of an attribute in place, keeping the attribute order;
appends when the attribute is absent. -/
def setAttr (attrs : List (String × AttrVal)) (k : String) (v : AttrVal) :
    List (String × AttrVal) :=
  match attrs with
  | [] => [(k, v)]
  | a :: tl => if a.1 = k then (k, v) :: tl else a :: setAttr tl k v

/-- Deletes an attribute. -/
def removeAttr (attrs : List (String × AttrVal)) (k : String) : List (String × AttrVal) :=
  attrs.filter (fun a => !(a.1 = k))

/-- Node at a path of a fragment. -/
def getFrag : List Node → Path → Option Node
  | _, [] => none
  | ns, i :: p =>
    match ns[i]? with
    | none => none
    | some n =>
      match p with
      | [] => some n
      | _ :: _ =>
        match n with
        | .text _ => none
        | .elem _ _ cs => getFrag cs p

/-- Applies a function to the node at an index of a child list. -/
def modifyKid (f : Node → Node) : List Node → Nat → List Node
  | [], _ => []
  | n :: tl, 0 => f n :: tl
  | n :: tl, Nat.succ i => n :: modifyKid f tl i

/-- Removes the node at an index of a child list. -/
def removeKid : List Node → Nat → List Node
  | [], _ => []
  | _ :: tl, 0 => tl
  | n :: tl, Nat.succ i => n :: removeKid tl i

/-- Replaces the node at a path of a fragment. -/
def setFrag : List Node → Path → Node → List Node
  | ns, [], _ => ns
  | ns, [i], m => modifyKid (fun _ => m) ns i
  | ns, i :: q :: p, m =>
    modifyKid
      (fun n =>
        match n with
        | .text s => .text s
        | .elem t a cs => .elem t a (setFrag cs (q :: p) m)) ns i

/-- Removes the node at a path of a fragment. -/
def removeFrag : List Node → Path → List Node
  | ns, [] => ns
  | ns, [i] => removeKid ns i
  | ns, i :: q :: p =>
    modifyKid
      (fun n =>
        match n with
        | .text s => .text s
        | .elem t a cs => .elem t a (removeFrag cs (q :: p))) ns i

/-- Node at a path relative to a single node. -/
def getAtNode (n : Node) (p : Path) : Option Node :=
  match p with
  | [] => some n
  | _ :: _ =>
    match n with
    | .text _ => none
    | .elem _ _ cs => getFrag cs p

/-- Replaces the node at a path relative to a single node. -/
def setAtNode (n : Node) (p : Path) (m : Node) : Node :=
  match p with
  | [] => m
  | _ :: _ =>
    match n with
    | .text s => .text s
    | .elem t a cs => .elem t a (setFrag cs p m)

/-- Removes the node at a nonempty path relative to a single node, the model
of decompose on a descendant. -/
def removeAtNode (n : Node) (p : Path) : Node :=
  match p with
  | [] => n
  | _ :: _ =>
    match n with
    | .text s => .text s
    | .elem t a cs => .elem t a (removeFrag cs p)

mutual

/-- Text nodes of a child list with their paths, in document order. -/
def textNodesKids : Nat → List Node → List (Path × String)
  | _, [] => []
  | i, n :: tl => ((textNodesNode n).map (fun q => (i :: q.1, q.2))) ++ textNodesKids (i + 1) tl

/-- Text nodes of the subtree of a node with their paths relative to it, in
document order; the model of find_all with string set to True. -/
def textNodesNode : Node → List (Path × String)
  | .text s => [([], s)]
  | .elem _ _ cs => textNodesKids 0 cs

end

mutual

/-- Paths of the elements of a child list satisfying a predicate, preorder. -/
def findElemsKids (pred : Node → Bool) : Nat → List Node → List Path
  | _, [] => []
  | i, n :: tl => ((findElemsNode pred n).map (fun q => i :: q)) ++ findElemsKids pred (i + 1) tl

/-- Paths, relative to a node, of the elements of its subtree satisfying a
predicate, the node itself included, preorder. -/
def findElemsNode (pred : Node → Bool) : Node → List Path
  | .text _ => []
  | .elem t a cs => (if pred (.elem t a cs) then [[]] else []) ++ findElemsKids pred 0 cs

end

/-- Paths of the elements of a fragment satisfying a predicate, in document
order; the model of find_all with a tag filter. -/
def findElemsFrag (pred : Node → Bool) (ns : List Node) : List Path := findElemsKids pred 0 ns

mutual

/-- All nodes of a child list, themselves and their descendants. -/
def subNodesKids : List Node → List Node
  | [] => []
  | n :: tl => subNodesNode n ++ subNodesKids tl

/-- All nodes of a subtree, the root included. -/
def subNodesNode : Node → List Node
  | .text s => [.text s]
  | .elem t a cs => .elem t a cs :: subNodesKids cs

end

mutual

/-- White-span scan of a child list: paths and paragraph-ancestor flags of
the spans whose style attribute carries a color:white token. -/
def whiteSpansKids (underP : Bool) : Nat → List Node → List (Path × Bool)
  | _, [] => []
  | i, n :: tl =>
    ((whiteSpansNode underP n).map (fun q => (i :: q.1, q.2))) ++ whiteSpansKids underP (i + 1) tl

/-- White-span scan of a subtree.  The flag records whether some proper
ancestor of the current node is a paragraph element. -/
def whiteSpansNode (underP : Bool) : Node → List (Path × Bool)
  | .text _ => []
  | .elem t a cs =>
    (if t = "span" &&
        (match getAttr a "style" with
         | some (.str st) => tokenBoundarySearch "color:white" st
         | _ => false)
     then [(([] : Path), underP)] else [])
    ++ whiteSpansKids (underP || t = "p") 0 cs

end

/-- Models the find_all selection of white-colored spans together with the
paragraph-ancestor classification computed for each span in the loop of the
white-text pass. -/
def whiteSpansFrag (ns : List Node) : List (Path × Bool) := whiteSpansKids false 0 ns

/-- Serialization of one attribute by the html formatter of BeautifulSoup. -/
def serializeAttr (a : String × AttrVal) : String :=
  " " ++ a.1 ++ "=\"" ++
  (match a.2 with
   | .str s => s
   | .multi l => String.intercalate " " l) ++ "\""

/-- Encoding of one text character by the html formatter: markup characters
and the non-breaking space become entities, ASCII text passes through. -/
def encodeHtmlChar (c : Char) : String :=
  if c = '&' then "&amp;"
  else if c = '<' then "&lt;"
  else if c = '>' then "&gt;"
  else if c = nbspChar then "&nbsp;"
  else String.mk [c]

/-- Encoding of a text node by the html formatter. -/
def encodeHtmlText (s : String) : String := String.join (s.data.map encodeHtmlChar)

/-- Raw concatenation of the text children of a script element, whose
contents the serializer emits without encoding. -/
def rawTextKids : List Node → String
  | [] => ""
  | .text s :: tl => s ++ rawTextKids tl
  | _ :: tl => rawTextKids tl

mutual

/-- Serialization of a child list. -/
def serializeKids : List Node → String
  | [] => ""
  | n :: tl => serializeNode n ++ serializeKids tl

/-- Serialization of a node by decode with the html formatter, restricted to
the constructs built by the repair engine. -/
def serializeNode : Node → String
  | .text s => encodeHtmlText s
  | .elem t a cs =>
    "<" ++ t ++ String.join (a.map serializeAttr) ++ ">" ++
    (if t = "script" then rawTextKids cs else serializeKids cs) ++ "</" ++ t ++ ">"

end

/-- Serialization of a fragment; the empty fragment serializes to the empty
string. -/
def serializeFrag (ns : List Node) : String := serializeKids ns

/-
Embedding of fix_word_html.py.
-/

/-- Script wrapper produced by parsing an encode string of the bug-fix
dictionary with html.parser: a script element holding the replacement
entities as literal text (entities inside a script element are not
decoded). -/
def scriptWrap (content : String) : Node :=
  .elem "script" [("type", .str "word_web_page_nav")] [.text content]

/-- Replacement entity of the solid-dot bullet fix. -/
def dotEntity : String := "&#9679;"

/-- Replacement entity of the solid-square bullet fix. -/
def squareEntity : String := "&#9632;"

/-- Replacement entities of the list-item spacing fix. -/
def sixNbspEntities : String := "&nbsp;&nbsp;&nbsp;&nbsp;&nbsp;&nbsp;"

/-- Models test_if_span_with_only_spaces: the element is a span tag with a
style attribute and exactly one content node, and its decoded serialization
matches the spaces-only regex.  The serialization between the tags matches
that regex exactly when the single content node is a text node whose
characters are ASCII whitespace or non-breaking spaces, with at least one
non-breaking space (see nbspOnlyText); a single element child serializes to
markup starting with an angle bracket and never matches. -/
def spanOnlySpaces : Node → Bool
  | .elem t a cs =>
    t = "span" && hasAttr a "style" &&
    (match cs with
     | [.text s] => nbspOnlyText s
     | _ => false)
  | _ => false

/-- Bullet symbol of the solid-dot pass, the two characters U+00C2 U+00B7
appearing literally in the source. -/
def solidDotSymbol : String := String.mk [Char.ofNat 194, Char.ofNat 183]

/-- Bullet symbol of the solid-square pass, the two characters U+00C2 U+00A7
appearing literally in the source. -/
def solidSquareSymbol : String := String.mk [Char.ofNat 194, Char.ofNat 167]

/-- Bullet symbol of the letter-o pass. -/
def letterOSymbol : String := "o"

/-- Models one iteration of the loop of fix_unordered_list_items on one
candidate paragraph: all structural tests, then the two replacements.
Returns the rewritten paragraph when the paragraph was recognized and fixed,
and none when some test failed and the paragraph was left untouched.  The
bulletFix argument is the parsed encode markup, or none when the encode
string is empty (letter-o pass). -/
def fixUnorderedPara (fontFamily symbol : String) (bulletFix : Option Node) (para : Node) :
    Option Node :=
  match textNodesNode para with
  | (p1, s1) :: (p2, _) :: _ =>
    if s1 ≠ symbol then none
    else
      match getAtNode para p1.dropLast with
      | some (.elem nm1 a1 _) =>
        if nm1 ≠ "span" then none
        else
          match getAttr a1 "style" with
          | some (.str st1) =>
            if ¬ tokenBoundarySearch ("font-family:" ++ fontFamily) st1 then none
            else
              match getAtNode para p2.dropLast with
              | some sp2 =>
                if ¬ spanOnlySpaces sp2 then none
                else if p2.dropLast.dropLast ≠ p1.dropLast then none
                else
                  let para1 :=
                    match bulletFix with
                    | some b => setAtNode para p1 b
                    | none => para
                  some (setAtNode para1 p2 (scriptWrap sixNbspEntities))
              | none => none
          | _ => none
      | _ => none
  | _ => none

/-- One step of the unordered-list pass over the candidate pool: the current
fragment and the kept part of the pool, updated at one pool path. -/
def unorderedStep (ff sym : String) (bulletFix : Option Node)
    (acc : List Node × List Path) (pp : Path) : List Node × List Path :=
  match getFrag acc.1 pp with
  | some p =>
    match fixUnorderedPara ff sym bulletFix p with
    | some p2 => (setFrag acc.1 pp p2, acc.2)
    | none => (acc.1, acc.2 ++ [pp])
  | none => (acc.1, acc.2 ++ [pp])

/-- Models one call of fix_unordered_list_items: every pool entry is
examined in order against the current tree; fixed paragraphs are rewritten
in the tree and removed from the pool. -/
def unorderedPass (ff sym : String) (bulletFix : Option Node)
    (frag : List Node) (pool : List Path) : List Node × List Path :=
  pool.foldl (unorderedStep ff sym bulletFix) (frag, [])

/-- Outcome of the ordered-list examination of one candidate paragraph. -/
inductive OrdOutcome where
  | skip
  | fixed (newPara : Node) (anomalous : Option String)
  | err
deriving DecidableEq, Repr

/-- Core of the ordered-list examination, after the symbol string and the
post-symbol spaces span have been located: the symbol pattern test, the
spaces-span test, the shared-parent tests, the text-indent style test with
the anomalous-unit record, and on success the three rewrites.  The err
outcome models the fatal return when the text-indent substitution does not
match exactly once. -/
def fixOrderedCore (para : Node) (symPath : Path) (symText : String)
    (endTextPath : Path) (preSpanPath : Option Path) : OrdOutcome :=
  if ¬ symbolMatch symText then .skip
  else
    let endSpanPath := endTextPath.dropLast
    match getAtNode para endSpanPath with
    | some endSpan =>
      if ¬ spanOnlySpaces endSpan then .skip
      else if symPath.dropLast ≠ endSpanPath.dropLast then .skip
      else if (match preSpanPath with
               | some pq => decide (pq.dropLast ≠ symPath.dropLast)
               | none => false) then .skip
      else
        match para with
        | .elem _ attrs _ =>
          match getAttr attrs "style" with
          | some (.str style) =>
            match tiSearch style with
            | none => .skip
            | some (g1, g2) =>
              let anom := if g2 ≠ "in" then some (g1 ++ g2) else none
              let para1 := setAtNode para (endSpanPath ++ [0]) (scriptWrap sixNbspEntities)
              let para2 :=
                match preSpanPath with
                | some pq => removeAtNode para1 pq
                | none => para1
              let r := tiSubn style
              if r.2 ≠ 1 then .err
              else
                match para2 with
                | .elem t2 a2 cs2 => .fixed (.elem t2 (setAttr a2 "style" (.str r.1)) cs2) anom
                | .text s2 => .fixed (.text s2) anom
          | _ => .skip
        | .text _ => .skip
    | none => .skip

/-- Models one iteration of the ordered-list loop of fix_word_html on one
candidate paragraph: locates the symbol string and the post-symbol spaces
span, branching on whether the first string is a pre-symbol spaces span,
then runs the core examination. -/
def fixOrderedPara (para : Node) : OrdOutcome :=
  match textNodesNode para with
  | (p1, s1) :: rest1 =>
    match rest1 with
    | [] => .skip
    | (p2, s2) :: rest2 =>
      let firstAllSpaces :=
        match getAtNode para p1.dropLast with
        | some n => spanOnlySpaces n
        | none => false
      if firstAllSpaces then
        match rest2 with
        | [] => .skip
        | (p3, _) :: _ => fixOrderedCore para p2 s2 p3 (some p1.dropLast)
      else fixOrderedCore para p1 s1 p2 none
  | [] => .skip

/-- One step of the ordered-list pass: the current fragment with the
anomalous-unit statistics, updated at one pool path; none models the fatal
error return. -/
def orderedStep (acc : Option (List Node × Nat × List String)) (pp : Path) :
    Option (List Node × Nat × List String) :=
  match acc with
  | none => none
  | some (frag, cnt, units) =>
    match getFrag frag pp with
    | some p =>
      match fixOrderedPara p with
      | .skip => some (frag, cnt, units)
      | .fixed p2 anom =>
        some (setFrag frag pp p2,
              (match anom with | some _ => cnt + 1 | none => cnt),
              (match anom with | some u => units ++ [u] | none => units))
      | .err => none
    | none => some (frag, cnt, units)

/-- Models the ordered-list loop of fix_word_html over the candidate pool
remaining after the three unordered passes. -/
def orderedPass (frag : List Node) (pool : List Path) :
    Option (List Node × Nat × List String) :=
  pool.foldl orderedStep (some (frag, 0, []))

/-- Deduplicated list of the anomalous text-indent declarations, as
aggregated for the warning message.  The source builds it by converting the
list to a set and back; the model keeps the first occurrence of each
element. -/
def dedupUnits (units : List String) : List String := units.dedup

/-- Comma-separated payload of the aggregated anomalous-units warning. -/
def unitsWarningText (units : List String) : String :=
  String.intercalate ", " (dedupUnits units)

/-- Models the candidate-paragraph selection of fix_word_html: a paragraph
element whose class attribute has a value matching the known class names and
whose style attribute contains a text-indent declaration. -/
def isCandidatePara (n : Node) : Bool :=
  match n with
  | .elem t a _ =>
    t = "p" &&
    (match getAttr a "class" with
     | some (.multi cls) => cls.any classNameMatch
     | some (.str s) => classNameMatch s
     | none => false) &&
    (match getAttr a "style" with
     | some (.str st) => strContainsSub "text-indent:" st
     | _ => false)
  | _ => false

/-- Statistics of a completed list-repair run. -/
structure RepairResult where
  frag : List Node
  numUnrecognized : Nat
  units : List String
deriving DecidableEq, Repr

/-- Models the list-bug repair engine of fix_word_html: candidate discovery,
the three unordered passes (solid dot, solid square, letter o) and the
ordered pass; none models the fatal error return. -/
def repairListBugs (frag : List Node) : Option RepairResult :=
  let pool0 := findElemsFrag isCandidatePara frag
  let r1 := unorderedPass "Symbol" solidDotSymbol (some (scriptWrap dotEntity)) frag pool0
  let r2 := unorderedPass "Wingdings" solidSquareSymbol (some (scriptWrap squareEntity)) r1.1 r1.2
  let r3 := unorderedPass "\"Courier New\"" letterOSymbol none r2.1 r2.2
  match orderedPass r3.1 r3.2 with
  | some (f4, cnt, units) => some ⟨f4, cnt, units⟩
  | none => none

/-- White-text processing policies of the parameter-file key. -/
inductive WhitePolicy where
  | doNotRemove
  | removeInParagraphs
  | removeAll
deriving DecidableEq, Repr

/-- Strip condition of the white-text pass for one span. -/
def whiteStrip (policy : WhitePolicy) (underP : Bool) : Bool :=
  (policy = WhitePolicy.removeInParagraphs && underP) || policy = WhitePolicy.removeAll

/-- One step of the white-text pass: counts the span in its category and
applies the strip when the policy requires it; none models the fatal return
when the removal substitution does not match exactly once. -/
def whiteStep (policy : WhitePolicy) (acc : Option (List Node × Nat × Nat))
    (e : Path × Bool) : Option (List Node × Nat × Nat) :=
  match acc with
  | none => none
  | some (frag, nUnder, nNot) =>
    let nUnder2 := if e.2 then nUnder + 1 else nUnder
    let nNot2 := if e.2 then nNot else nNot + 1
    if ¬ whiteStrip policy e.2 then some (frag, nUnder2, nNot2)
    else
      match getFrag frag e.1 with
      | some (.elem t a cs) =>
        match getAttr a "style" with
        | some (.str style) =>
          if style = "color:white" then
            some (setFrag frag e.1 (.elem t (removeAttr a "style") cs), nUnder2, nNot2)
          else
            let r := cwSubn style
            if r.2 ≠ 1 then none
            else some (setFrag frag e.1 (.elem t (setAttr a "style" (.str r.1)) cs), nUnder2, nNot2)
        | _ => some (frag, nUnder2, nNot2)
      | _ => some (frag, nUnder2, nNot2)

/-- Models the white-text pass of fix_word_html: the selected spans are
processed in document order; the returned counters are the number of
white-colored spans under a paragraph and not under a paragraph. -/
def whiteTextPass (policy : WhitePolicy) (frag : List Node) :
    Option (List Node × Nat × Nat) :=
  (whiteSpansFrag frag).foldl (whiteStep policy) (some (frag, 0, 0))

/-
Embedding of the raw-marker stripping loop at the end of fix_word_html.
-/

/-- Bug-fix descriptor: one entry of the html-entity-encodings dictionary. -/
structure BugFixDescriptor where
  description : String
  encode : String
  decode : String
  numberEncoded : Nat
deriving DecidableEq, Repr

/-- Script opening tag of the raw-marker wrapping. -/
def scriptOpen : String := "<script type=\"word_web_page_nav\">"

/-- Script closing tag of the raw-marker wrapping. -/
def scriptClose : String := "</script>"

/-- Solid-dot descriptor with its running counter. -/
def dotDescriptor (n : Nat) : BugFixDescriptor :=
  ⟨"solid-dot bullet-symbols (used in levels 1,4,7)",
   scriptOpen ++ dotEntity ++ scriptClose, dotEntity, n⟩

/-- Solid-square descriptor with its running counter. -/
def squareDescriptor (n : Nat) : BugFixDescriptor :=
  ⟨"solid-square bullet-symbols (used in levels 3,6,9)",
   scriptOpen ++ squareEntity ++ scriptClose, squareEntity, n⟩

/-- Letter-o descriptor: no symbol substitution, empty encode and decode. -/
def letterODescriptor (n : Nat) : BugFixDescriptor :=
  ⟨"letter o bullet-symbols (used in levels 2,5,8)", "", "", n⟩

/-- Spacing descriptor shared by all list fixes. -/
def sixNbspDescriptor (n : Nat) : BugFixDescriptor :=
  ⟨"list-item spacing", scriptOpen ++ sixNbspEntities ++ scriptClose, sixNbspEntities, n⟩

/-- The four descriptors in dictionary insertion order, with their
counters. -/
def wwnDescriptors (a b c d : Nat) : List BugFixDescriptor :=
  [dotDescriptor a, squareDescriptor b, letterODescriptor c, sixNbspDescriptor d]

/-- Models one iteration of the decode loop: a descriptor with a zero
counter is skipped; otherwise the encode markup is replaced by the decode
markup everywhere, and a substitution count different from the counter is
the fatal error, modelled by none. -/
def decodeStep (html : String) (d : BugFixDescriptor) : Option String :=
  if d.numberEncoded = 0 then some html
  else
    let r := subnLit d.encode d.decode html
    if r.2 = d.numberEncoded then some r.1 else none

/-- Models the decode loop over the descriptor dictionary: the serialized
document is threaded through the steps; none models the fatal error return,
in which case no document text is handed to the renderer. -/
def decodeAll : String → List BugFixDescriptor → Option String
  | html, [] => some html
  | html, d :: ds =>
    match decodeStep html d with
    | some h => decodeAll h ds
    | none => none

/-- Property that along the decode loop every processed descriptor with a
nonzero counter sees a substitution count equal to that counter. -/
def decodeCountsOk : String → List BugFixDescriptor → Prop
  | _, [] => True
  | html, d :: ds =>
    (d.numberEncoded ≠ 0 → (subnLit d.encode d.decode html).2 = d.numberEncoded) ∧
    decodeCountsOk (if d.numberEncoded = 0 then html else (subnLit d.encode d.decode html).1) ds

/-
Embedding of the table-of-contents extraction of construct_html_sections.py.
-/

/-- Paragraph-element test of the find_all call. -/
def isParaElem (n : Node) : Bool :=
  match n with
  | .elem t _ _ => t = "p"
  | _ => false

/-- Models the string attribute of BeautifulSoup on a tag: the single string
reached through a chain of single-child tags, and none when some tag on the
chain has zero or several children. -/
def nodeString : Node → Option String
  | .text s => some s
  | .elem _ _ [c] => nodeString c
  | .elem _ _ _ => none

/-- Empty-paragraph test of the extraction: the paragraph string exists and
matches the whitespace-only pattern. -/
def isEmptyParaAt (frag : List Node) (pp : Path) : Bool :=
  match getFrag frag pp with
  | some n =>
    (match nodeString n with
     | some s => wsStringSearch s
     | none => false)
  | none => false

/-- TOC-entry test of the extraction: a single class value matching the TOC
class pattern.  The class attribute of a parsed tag is always a list; a
plain string value cannot pass the length-one test with a matching name. -/
def isTocParaAt (frag : List Node) (pp : Path) : Bool :=
  match getFrag frag pp with
  | some (.elem _ a _) =>
    (match getAttr a "class" with
     | some (.multi [c]) => msoTocClassMatch c
     | _ => false)
  | _ => false

/-- Path of the pure-newline text sibling following a TOC paragraph, when
present. -/
def nlSiblingPath (frag : List Node) (pp : Path) : Option Path :=
  match pp.getLast? with
  | none => none
  | some i =>
    let sib := pp.dropLast ++ [i + 1]
    match getFrag frag sib with
    | some (.text s) => if nlRunSearch s then some sib else none
    | _ => none

/-- Paths moved together with a TOC paragraph: its pure-newline text
sibling, when present. -/
def sibExtend (frag : List Node) (pp : Path) : List Path :=
  match nlSiblingPath frag pp with
  | some s => [s]
  | none => []

/-- Result of the TOC extraction. -/
structure TocResult where
  body : List Node
  toc : List Node
  numEmpty : Nat
  numToc : Nat
deriving DecidableEq, Repr

/-- Models the TOC extraction of construct_html_sections: the leading run of
empty paragraphs is measured, the following run of TOC-classed paragraphs is
collected, and only when at least one TOC paragraph was found are the empty
paragraphs destroyed and the TOC paragraphs (and their pure-newline
siblings) moved into the separate TOC fragment.  Removal is performed in
reverse document order, which leaves every remaining path valid and equals
the effect of the in-place moves of the source. -/
def extractToc (frag : List Node) : TocResult :=
  let paras := findElemsFrag isParaElem frag
  let emptyRun := paras.takeWhile (fun pp => isEmptyParaAt frag pp)
  let nEmpty := emptyRun.length
  let tocPaths := (paras.drop nEmpty).takeWhile (fun pp => isTocParaAt frag pp)
  let nToc := tocPaths.length
  if nToc = 0 then ⟨frag, [], nEmpty, 0⟩
  else
    let movedPaths := tocPaths.foldr
      (fun pp acc => pp :: (sibExtend frag pp ++ acc)) []
    let tocNodes := movedPaths.filterMap (fun pp => getFrag frag pp)
    let removed := (emptyRun ++ movedPaths).foldr (fun pp f => removeFrag f pp) frag
    ⟨removed, tocNodes, nEmpty, nToc⟩

/-
Style-token vocabulary used to state the substitution properties: a style
value is the semicolon-separated join of its tokens.
-/

/-- Clean style token: free of semicolons and newlines, so that the token
boundaries of the value are exactly its semicolons. -/
def cleanCh (t : List Char) : Bool := t.all (fun c => c ≠ ';' && c ≠ '\n')

/-- Join of style tokens with semicolon separators. -/
def joinCh : List (List Char) → List Char
  | [] => []
  | [t] => t
  | t :: t2 :: ts => t ++ ';' :: joinCh (t2 :: ts)

/-- String-level join of style tokens. -/
def joinStyle (ts : List String) : String := String.mk (joinCh (ts.map String.data))

/-- Parts of a full text-indent declaration token: the sign-and-digits part
and the unit letters, when the token is exactly the literal followed by a
value. -/
def tiDeclParts (t : List Char) : Option (List Char × List Char) :=
  match stripPre tiLit t with
  | none => none
  | some r =>
    match tiValueParts r with
    | some (sd, ls, []) => some (sd, ls)
    | _ => none

/-- Test for a full text-indent declaration token. -/
def tiDeclCh (t : List Char) : Bool := (tiDeclParts t).isSome

/-
Concrete fragments used by counterexamples and witnesses.
-/

/-- Span with a style attribute holding two color:white tokens. -/
def c6frag : List Node := [.elem "span" [("style", .str "color:white;color:white")] [.text "x"]]

/-- Span remaining after one strip-all run on c6frag. -/
def c6frag1 : List Node := [.elem "span" [("style", .str "color:white")] [.text "x"]]

/-- Span remaining after two strip-all runs on c6frag. -/
def c6frag2 : List Node := [.elem "span" [] [.text "x"]]

/-- Prefix test on paths, used to state that two tree locations are
unrelated (neither contains the other). -/
def pathPre : Path → Path → Bool
  | [], _ => true
  | _ :: _, [] => false
  | i :: p, j :: q => i = j && pathPre p q

/-- Run of consecutive top-level paths, used to describe the paths returned
by the paragraph scan on a flat fragment. -/
def pathRun (i : Nat) : Nat → List Path
  | 0 => []
  | Nat.succ k => [i] :: pathRun (i + 1) k

/-
Theorems.
-/

theorem decodeAll_isSome_iff (ds : List BugFixDescriptor) (html : String) :
    (decodeAll html ds).isSome ↔ decodeCountsOk html ds := by
  induction ds generalizing html with
  | nil => simp [decodeAll, decodeCountsOk]
  | cons d tl ih =>
    simp only [decodeAll, decodeCountsOk, decodeStep]
    by_cases h0 : d.numberEncoded = 0
    · simp [h0, ih]
    · by_cases hc : (subnLit d.encode d.decode html).2 = d.numberEncoded
      · simp [h0, hc, ih]
      · simp [h0, hc]

/-- C1: in the decode loop over the four bug-fix descriptors, a descriptor
with a nonzero insertion counter is processed by replacing its script-wrapped
encode form with its decode form, and the loop hands a document string to
the renderer exactly when every such substitution count equals the counter;
when some count differs the loop returns the error indicator and emits no
output. -/
theorem claim_C1 (html : String) (a b c d : Nat) :
    ((decodeAll html (wwnDescriptors a b c d)).isSome ↔
      decodeCountsOk html (wwnDescriptors a b c d)) ∧
    (¬ decodeCountsOk html (wwnDescriptors a b c d) →
      decodeAll html (wwnDescriptors a b c d) = none) := by
  refine ⟨decodeAll_isSome_iff _ _, fun h => ?_⟩
  rcases ho : decodeAll html (wwnDescriptors a b c d) with _ | v
  · rfl
  · exact absurd ((decodeAll_isSome_iff _ _).mp (by simp [ho])) h

/-- Witness for C1 at a concrete document and concrete counters. -/
theorem claim_C1_witness :
    ((decodeAll "ab" (wwnDescriptors 0 0 0 0)).isSome ↔
      decodeCountsOk "ab" (wwnDescriptors 0 0 0 0)) ∧
    (¬ decodeCountsOk "ab" (wwnDescriptors 0 0 0 0) →
      decodeAll "ab" (wwnDescriptors 0 0 0 0) = none) :=
  claim_C1 "ab" 0 0 0 0

/-- C6 counterexample: on a span whose style holds two color:white tokens,
one strip-all run leaves the style value color:white (the second token
survives because the scan consumed its boundary semicolon), and a second
run deletes the whole style attribute, so running the pass twice does not
equal running it once. -/
theorem claim_C6_counterexample :
    whiteTextPass WhitePolicy.removeAll c6frag = some (c6frag1, 0, 1) ∧
    whiteTextPass WhitePolicy.removeAll c6frag1 = some (c6frag2, 0, 1) ∧
    c6frag1 ≠ c6frag2 := by
  refine ⟨by decide, by decide, by decide⟩

/-- C6 as amended: when after one successful strip-all run no span of the
resulting fragment carries a color:white token at token boundaries in its
style attribute, a second run returns the same fragment (and finds no
white-colored spans); the premise of the original claim that one run always
removes every such token is refuted by claim_C6_counterexample. -/
theorem claim_C6 (frag f1 : List Node) (a b : Nat)
    (_h1 : whiteTextPass WhitePolicy.removeAll frag = some (f1, a, b))
    (h2 : whiteSpansFrag f1 = []) :
    whiteTextPass WhitePolicy.removeAll f1 = some (f1, 0, 0) := by
  simp [whiteTextPass, h2]

/-- Witness for C6 at a concrete fragment. -/
theorem claim_C6_witness :
    whiteTextPass WhitePolicy.removeAll c6frag1 = some (c6frag2, 0, 1) ∧
    whiteTextPass WhitePolicy.removeAll c6frag2 = some (c6frag2, 0, 0) :=
  ⟨by decide, claim_C6 c6frag1 c6frag2 0 1 (by decide) (by decide)⟩

theorem mem_subNodesNode_self (n : Node) : n ∈ subNodesNode n := by
  cases n with
  | text s => simp [subNodesNode]
  | elem t a cs => simp [subNodesNode]

theorem mem_subNodesKids_of_mem {n : Node} {ns : List Node} (hn : n ∈ ns) :
    ∀ {m : Node}, m ∈ subNodesNode n → m ∈ subNodesKids ns := by
  induction ns with
  | nil => cases hn
  | cons x tl ih =>
    intro m hm
    rcases List.mem_cons.mp hn with h | h
    · subst h
      simp [subNodesKids, hm]
    · simp [subNodesKids]
      exact Or.inr (ih h hm)

theorem getFrag_mem_subNodes :
    ∀ (p : Path) (ns : List Node) (m : Node), getFrag ns p = some m → m ∈ subNodesKids ns := by
  intro p
  induction p with
  | nil => intro ns m h; simp [getFrag] at h
  | cons i rest ih =>
    intro ns m h
    simp only [getFrag] at h
    rcases hi : ns[i]? with _ | n
    · rw [hi] at h; cases h
    · rw [hi] at h
      have hnm : n ∈ ns := by
        have := List.getElem?_eq_some_iff.mp hi
        rcases this with ⟨hlt, hget⟩
        exact hget ▸ List.getElem_mem hlt
      cases rest with
      | nil =>
        cases h
        exact mem_subNodesKids_of_mem hnm (mem_subNodesNode_self _)
      | cons q qs =>
        cases n with
        | text s => cases h
        | elem t a cs =>
          have hmem : m ∈ subNodesKids cs := ih cs m h
          refine mem_subNodesKids_of_mem hnm ?_
          simp [subNodesNode]
          exact Or.inr hmem

theorem getAtNode_mem_subNodes {n m : Node} {p : Path} (h : getAtNode n p = some m) :
    m ∈ subNodesNode n := by
  cases p with
  | nil => simp [getAtNode] at h; cases h; exact mem_subNodesNode_self _
  | cons i rest =>
    cases n with
    | text s => simp [getAtNode] at h
    | elem t a cs =>
      simp only [getAtNode] at h
      have hmem := getFrag_mem_subNodes _ _ _ h
      simp [subNodesNode]
      exact Or.inr hmem

theorem fixUnorderedPara_none_of_no_spaces_span {para : Node}
    (h : ∀ e ∈ subNodesNode para, spanOnlySpaces e = false)
    (ff sym : String) (bf : Option Node) : fixUnorderedPara ff sym bf para = none := by
  unfold fixUnorderedPara
  rcases textNodesNode para with _ | ⟨⟨p1, s1⟩, _ | ⟨⟨p2, s2⟩, tl⟩⟩
  · rfl
  · rfl
  · simp only
    split
    · rfl
    · rcases hg : getAtNode para p1.dropLast with _ | n1
      · rfl
      · cases n1 with
        | text s => rfl
        | elem nm1 a1 k1 =>
          simp only
          split
          · rfl
          · rcases ha : getAttr a1 "style" with _ | v
            · rfl
            · cases v with
              | multi l => rfl
              | str st1 =>
                simp only
                split
                · rfl
                · rcases hg2 : getAtNode para p2.dropLast with _ | sp2
                  · rfl
                  · simp only
                    have hfalse : spanOnlySpaces sp2 = false :=
                      h sp2 (getAtNode_mem_subNodes hg2)
                    simp [hfalse]

theorem fixOrderedCore_skip_of_no_spaces_span {para : Node}
    (h : ∀ e ∈ subNodesNode para, spanOnlySpaces e = false)
    (symPath : Path) (symText : String) (endTextPath : Path) (pre : Option Path) :
    fixOrderedCore para symPath symText endTextPath pre = OrdOutcome.skip := by
  unfold fixOrderedCore
  split
  · rfl
  · rcases hg : getAtNode para endTextPath.dropLast with _ | endSpan
    · simp [hg]
    · have hfalse : spanOnlySpaces endSpan = false := h endSpan (getAtNode_mem_subNodes hg)
      simp [hg, hfalse]

theorem fixOrderedPara_skip_of_no_spaces_span {para : Node}
    (h : ∀ e ∈ subNodesNode para, spanOnlySpaces e = false) :
    fixOrderedPara para = OrdOutcome.skip := by
  unfold fixOrderedPara
  rcases textNodesNode para with _ | ⟨⟨p1, s1⟩, _ | ⟨⟨p2, s2⟩, tl⟩⟩
  · rfl
  · rfl
  · simp only
    split
    · rcases tl with _ | ⟨⟨p3, s3⟩, tl2⟩
      · rfl
      · exact fixOrderedCore_skip_of_no_spaces_span h _ _ _ _
    · exact fixOrderedCore_skip_of_no_spaces_span h _ _ _ _

/-- C10: the spaces-only-span test accepts only a span element carrying a
style attribute whose single content node is a text node of non-breaking
spaces optionally surrounded by whitespace; consequently a paragraph none of
whose nodes passes the test (in particular one whose spacing span lacks a
style attribute, or spreads its non-breaking spaces over several children)
is left unrepaired by every unordered-list pass and by the ordered-list
pass. -/
theorem claim_C10 :
    (∀ e : Node, spanOnlySpaces e = true →
      ∃ a s, e = Node.elem "span" a [Node.text s] ∧ hasAttr a "style" = true ∧
        nbspOnlyText s = true) ∧
    (∀ para : Node, (∀ e ∈ subNodesNode para, spanOnlySpaces e = false) →
      (∀ ff sym bf, fixUnorderedPara ff sym bf para = none) ∧
      fixOrderedPara para = OrdOutcome.skip) := by
  constructor
  · intro e he
    cases e with
    | text s => simp [spanOnlySpaces] at he
    | elem t a cs =>
      simp only [spanOnlySpaces, Bool.and_eq_true, decide_eq_true_eq] at he
      obtain ⟨⟨ht, hs⟩, hc⟩ := he
      subst ht
      rcases cs with _ | ⟨c0, _ | _⟩
      · simp at hc
      · cases c0 with
        | text s0 => exact ⟨a, s0, rfl, hs, hc⟩
        | elem t0 a0 cs0 => simp at hc
      · simp at hc
  · intro para h
    exact ⟨fun ff sym bf => fixUnorderedPara_none_of_no_spaces_span h ff sym bf,
           fixOrderedPara_skip_of_no_spaces_span h⟩

/-- Witness for C10 at a concrete element and a concrete paragraph. -/
theorem claim_C10_witness :
    (∃ a s, (Node.elem "span" [("style", AttrVal.str "f")]
        [Node.text (String.mk [nbspChar])] : Node) = Node.elem "span" a [Node.text s] ∧
        hasAttr a "style" = true ∧ nbspOnlyText s = true) ∧
    (∀ ff sym bf, fixUnorderedPara ff sym bf
        (Node.elem "p" [] [Node.text "a", Node.elem "span" [] [Node.text "b"]]) = none) ∧
    fixOrderedPara (Node.elem "p" [] [Node.text "a", Node.elem "span" [] [Node.text "b"]]) =
      OrdOutcome.skip := by
  refine ⟨claim_C10.1 _ (by decide), ?_, ?_⟩
  · exact (claim_C10.2 _ (by decide)).1
  · exact (claim_C10.2 _ (by decide)).2

theorem stripPre_eq : ∀ {p l r : List Char}, stripPre p l = some r → l = p ++ r := by
  intro p
  induction p with
  | nil => intro l r h; simp [stripPre] at h; simp [h]
  | cons c cs ih =>
    intro l r h
    cases l with
    | nil => simp [stripPre] at h
    | cons d ds =>
      simp only [stripPre] at h
      split at h
      · rename_i hc
        have := ih h
        subst hc this
        rfl
      · cases h

theorem stripPre_app {p l r : List Char} (x : List Char) (h : stripPre p l = some r) :
    stripPre p (l ++ x) = some (r ++ x) := by
  induction p generalizing l r with
  | nil =>
    simp [stripPre] at h
    subst h
    simp [stripPre]
  | cons c cs ih =>
    cases l with
    | nil => simp [stripPre] at h
    | cons d ds =>
      simp only [stripPre] at h ⊢
      split at h
      · rename_i hc
        simp [hc, ih h]
      · cases h

theorem stripPre_none_semi {p : List Char} (hp : ';' ∉ p) :
    ∀ {l : List Char}, stripPre p l = none → ∀ x, stripPre p (l ++ ';' :: x) = none := by
  induction p with
  | nil => intro l h; simp [stripPre] at h
  | cons c cs ih =>
    intro l h x
    cases l with
    | nil =>
      have hc : c ≠ ';' := fun hc => hp (by simp [hc])
      simp [stripPre, hc]
    | cons d ds =>
      simp only [stripPre] at h ⊢
      split at h
      · rename_i hc
        simp only [hc, if_true]
        exact ih (fun hm => hp (List.mem_cons_of_mem _ hm)) h x
      · rename_i hc
        simp [hc]

theorem stripPre_length {p l r : List Char} (h : stripPre p l = some r) :
    l.length = p.length + r.length := by
  have := stripPre_eq h
  subst this
  simp

theorem dropWhile_nil_all {p : Char → Bool} :
    ∀ {l : List Char}, l.dropWhile p = [] → ∀ c ∈ l, p c = true := by
  intro l
  induction l with
  | nil => intro _ c hc; cases hc
  | cons d ds ih =>
    intro h c hc
    rw [List.dropWhile_cons] at h
    split at h
    · rename_i hd
      rcases List.mem_cons.mp hc with h1 | h1
      · exact h1 ▸ hd
      · exact ih h c h1
    · cases h

theorem takeWhile_all {p : Char → Bool} :
    ∀ {l : List Char}, (∀ c ∈ l, p c = true) → l.takeWhile p = l := by
  intro l
  induction l with
  | nil => intro _; rfl
  | cons d ds ih =>
    intro h
    rw [List.takeWhile_cons]
    simp [h d (by simp), ih (fun c hc => h c (List.mem_cons_of_mem _ hc))]

theorem dropWhile_head_false {p : Char → Bool} :
    ∀ {l : List Char} {z : Char} {zs : List Char}, l.dropWhile p = z :: zs → p z = false := by
  intro l
  induction l with
  | nil => intro z zs h; cases h
  | cons d ds ih =>
    intro z zs h
    rw [List.dropWhile_cons] at h
    split at h
    · exact ih h
    · rename_i hd
      cases h
      simp only [Bool.not_eq_true] at hd
      exact hd

theorem tw_app_all {p : Char → Bool} {l : List Char} (h : ∀ c ∈ l, p c = true)
    (x : List Char) :
    (l ++ x).takeWhile p = l ++ x.takeWhile p ∧ (l ++ x).dropWhile p = x.dropWhile p := by
  induction l with
  | nil => simp
  | cons d ds ih =>
    have hd := h d (by simp)
    have ihh := ih (fun c hc => h c (List.mem_cons_of_mem _ hc))
    constructor
    · simp only [List.cons_append, List.takeWhile_cons, hd, if_true]
      simp [ihh.1]
    · simp only [List.cons_append, List.dropWhile_cons, hd, if_true]
      exact ihh.2

theorem tw_app_stop {p : Char → Bool} :
    ∀ {l : List Char} {z : Char} {zs : List Char} (x : List Char), l.dropWhile p = z :: zs →
      (l ++ x).takeWhile p = l.takeWhile p ∧ (l ++ x).dropWhile p = z :: (zs ++ x) := by
  intro l
  induction l with
  | nil => intro z zs x h; simp at h
  | cons d ds ih =>
    intro z zs x h
    rw [List.dropWhile_cons] at h
    split at h
    · rename_i hd
      have ihh := ih x h
      constructor
      · simp only [List.cons_append, List.takeWhile_cons, hd, if_true]
        simp [ihh.1]
      · simp only [List.cons_append, List.dropWhile_cons, hd, if_true]
        exact ihh.2
    · rename_i hd
      cases h
      constructor
      · simp only [List.cons_append, List.takeWhile_cons]
        simp [hd]
      · simp only [List.cons_append, List.dropWhile_cons]
        simp [hd]

theorem tiVP_core_ext {v ds ls rest : List Char} (x : List Char)
    (hds : v.takeWhile isDigitDot = ds)
    (hls : (v.dropWhile isDigitDot).takeWhile isAsciiLetter = ls) (hls0 : ls ≠ [])
    (hrest : (v.dropWhile isDigitDot).dropWhile isAsciiLetter = rest) :
    (v ++ ';' :: x).takeWhile isDigitDot = ds ∧
    ((v ++ ';' :: x).dropWhile isDigitDot).takeWhile isAsciiLetter = ls ∧
    ((v ++ ';' :: x).dropWhile isDigitDot).dropWhile isAsciiLetter = rest ++ ';' :: x := by
  rcases hr2 : v.dropWhile isDigitDot with _ | ⟨z, zs⟩
  · rw [hr2] at hls
    simp at hls
    exact absurd hls hls0
  · have hstop := tw_app_stop (p := isDigitDot) (';' :: x) hr2
    rw [hr2] at hls hrest
    refine ⟨by rw [hstop.1, hds], ?_, ?_⟩
    · rw [hstop.2]
      simp only [← List.cons_append]
      rcases hr3 : (z :: zs).dropWhile isAsciiLetter with _ | ⟨z2, zs2⟩
      · have hall := dropWhile_nil_all hr3
        rw [(tw_app_all hall (';' :: x)).1]
        rw [takeWhile_all hall] at hls
        simp only [List.takeWhile_cons]
        rw [show isAsciiLetter ';' = false from by decide]
        simp [hls]
      · rw [(tw_app_stop (p := isAsciiLetter) (';' :: x) hr3).1, hls]
    · rw [hstop.2]
      simp only [← List.cons_append]
      rcases hr3 : (z :: zs).dropWhile isAsciiLetter with _ | ⟨z2, zs2⟩
      · have hall := dropWhile_nil_all hr3
        rw [(tw_app_all hall (';' :: x)).2]
        rw [hr3] at hrest
        simp only [List.dropWhile_cons]
        rw [show isAsciiLetter ';' = false from by decide]
        simp [← hrest]
      · rw [(tw_app_stop (p := isAsciiLetter) (';' :: x) hr3).2]
        rw [hr3] at hrest
        simp [← hrest]

theorem tiValueParts_eq {l sd ls rest : List Char}
    (h : tiValueParts l = some (sd, ls, rest)) :
    l = sd ++ ls ++ rest ∧ sd ≠ [] ∧ ls ≠ [] := by
  cases l with
  | nil => simp [tiValueParts] at h
  | cons c cs =>
    simp only [tiValueParts] at h
    split at h
    · -- sign taken: sr = ([c], cs)
      simp only at h
      split at h
      · cases h
      · split at h
        · cases h
        · rename_i hds0 hls0
          simp only [Option.some.injEq, Prod.mk.injEq] at h
          obtain ⟨h1, h2, h3⟩ := h
          subst h1 h2 h3
          refine ⟨?_, by simp, by simpa using hls0⟩
          have e1 := List.takeWhile_append_dropWhile (p := isDigitDot) (l := cs)
          have e2 := List.takeWhile_append_dropWhile (p := isAsciiLetter)
            (l := cs.dropWhile isDigitDot)
          simp only [List.cons_append, List.nil_append, List.append_assoc]
          rw [e2, e1]
    · -- no sign: sr = ([], c :: cs)
      simp only at h
      split at h
      · cases h
      · split at h
        · cases h
        · rename_i hds0 hls0
          simp only [Option.some.injEq, Prod.mk.injEq] at h
          obtain ⟨h1, h2, h3⟩ := h
          subst h1 h2 h3
          refine ⟨?_, by simpa using hds0, by simpa using hls0⟩
          have e1 := List.takeWhile_append_dropWhile (p := isDigitDot) (l := c :: cs)
          have e2 := List.takeWhile_append_dropWhile (p := isAsciiLetter)
            (l := (c :: cs).dropWhile isDigitDot)
          simp only [List.cons_append, List.nil_append, List.append_assoc]
          rw [e2, e1]

theorem tiValueParts_ext_semi {l sd ls rest : List Char} (x : List Char)
    (h : tiValueParts l = some (sd, ls, rest)) :
    tiValueParts (l ++ ';' :: x) = some (sd, ls, rest ++ ';' :: x) := by
  cases l with
  | nil => simp [tiValueParts] at h
  | cons c cs =>
    simp only [tiValueParts] at h ⊢
    split at h
    · rename_i hsign
      simp only at h
      split at h
      · cases h
      · split at h
        · cases h
        · rename_i hds0 hls0
          simp only [Option.some.injEq, Prod.mk.injEq] at h
          obtain ⟨h1, h2, h3⟩ := h
          simp only [List.cons_append]
          rw [if_pos hsign]
          simp only
          have hcore := tiVP_core_ext (v := cs) (x := x) rfl rfl
            (by simpa using hls0) rfl
          rw [hcore.1, hcore.2.1, hcore.2.2]
          simp only [List.isEmpty_eq_true]
          rw [if_neg (by simpa using hds0), if_neg (by simpa using hls0)]
          rw [h1, h2, h3]
    · rename_i hsign
      simp only at h
      split at h
      · cases h
      · split at h
        · cases h
        · rename_i hds0 hls0
          simp only [Option.some.injEq, Prod.mk.injEq] at h
          obtain ⟨h1, h2, h3⟩ := h
          simp only [List.cons_append]
          rw [if_neg hsign]
          simp only
          have hcore := tiVP_core_ext (v := c :: cs) (x := x) rfl rfl
            (by simpa using hls0) rfl
          rw [show (c :: (cs ++ ';' :: x)) = ((c :: cs) ++ ';' :: x) from rfl]
          rw [hcore.1, hcore.2.1, hcore.2.2]
          simp only [List.isEmpty_eq_true]
          rw [if_neg (by simpa using hds0), if_neg (by simpa using hls0)]
          rw [h1, h2, h3]

theorem tw_nil_app {p : Char → Bool} {l : List Char} (h : l.takeWhile p = [])
    {w : Char} (hw : p w = false) (x : List Char) :
    (l ++ w :: x).takeWhile p = [] := by
  cases l with
  | nil => simp [List.takeWhile_cons, hw]
  | cons z zs =>
    rw [List.takeWhile_cons] at h
    split at h
    · cases h
    · rename_i hz
      simp only [List.cons_append, List.takeWhile_cons]
      simp [hz]

theorem tiValueParts_none_semi {l : List Char} (x : List Char)
    (h : tiValueParts l = none) : tiValueParts (l ++ ';' :: x) = none := by
  cases l with
  | nil =>
    have h1 : (decide (';' = '+') || decide (';' = '-')) = false := by decide
    have h2 : isDigitDot ';' = false := by decide
    simp [tiValueParts, h1, h2, List.takeWhile_cons]
  | cons c cs =>
    simp only [tiValueParts] at h ⊢
    split at h <;> rename_i hsign
    · simp only at h
      simp only [List.cons_append]
      rw [if_pos hsign]
      simp only
      split at h
      · rename_i hds0
        simp only [List.isEmpty_eq_true] at hds0
        have hnil := tw_nil_app (p := isDigitDot) hds0 (w := ';') (by decide) x
        simp [hnil]
      · rename_i hds0
        split at h
        · rename_i hls0
          rcases hr2 : cs.dropWhile isDigitDot with _ | ⟨z, zs⟩
          · have hall := dropWhile_nil_all hr2
            have happ := tw_app_all hall (';' :: x)
            rw [happ.1, happ.2]
            have hcs0 : cs.isEmpty = false := by
              rw [takeWhile_all hall] at hds0
              simpa using hds0
            simp [List.takeWhile_cons, List.dropWhile_cons,
              show isDigitDot ';' = false from by decide,
              show isAsciiLetter ';' = false from by decide, hcs0]
          · have hstop := tw_app_stop (p := isDigitDot) (';' :: x) hr2
            rw [hstop.1, hstop.2]
            have hz : isAsciiLetter z = false := by
              try simp only [List.isEmpty_eq_true] at hls0
              try rw [hr2] at hls0
              rw [List.takeWhile_cons] at hls0
              by_cases hzz : isAsciiLetter z = true
              · rw [hzz] at hls0; simp at hls0
              · simpa using hzz
            rw [if_neg (by simpa using hds0)]
            simp only [List.takeWhile_cons, hz]
            simp
        · cases h
    · simp only at h
      simp only [List.cons_append]
      rw [if_neg hsign]
      simp only
      split at h
      · rename_i hds0
        simp only [List.isEmpty_eq_true] at hds0
        have hnil := tw_nil_app (p := isDigitDot) hds0 (w := ';') (by decide) x
        rw [show (c :: (cs ++ ';' :: x)) = ((c :: cs) ++ ';' :: x) from rfl]
        rw [hnil]
        simp
      · rename_i hds0
        split at h
        · rename_i hls0
          rcases hr2 : (c :: cs).dropWhile isDigitDot with _ | ⟨z, zs⟩
          · have hall := dropWhile_nil_all hr2
            have happ := tw_app_all (l := c :: cs) hall (';' :: x)
            rw [show (c :: (cs ++ ';' :: x)) = ((c :: cs) ++ ';' :: x) from rfl]
            rw [happ.1, happ.2]
            have hcs0 : (c :: cs).isEmpty = false := by simp
            have hds1 : ((c :: cs).takeWhile isDigitDot).isEmpty = false := by
              simpa using hds0
            rw [takeWhile_all hall] at hds1
            simp [List.takeWhile_cons, List.dropWhile_cons,
              show isDigitDot ';' = false from by decide,
              show isAsciiLetter ';' = false from by decide, hds1]
          · have hstop := tw_app_stop (p := isDigitDot) (';' :: x) hr2
            rw [show (c :: (cs ++ ';' :: x)) = ((c :: cs) ++ ';' :: x) from rfl]
            rw [hstop.1, hstop.2]
            have hz : isAsciiLetter z = false := by
              try simp only [List.isEmpty_eq_true] at hls0
              try rw [hr2] at hls0
              rw [List.takeWhile_cons] at hls0
              by_cases hzz : isAsciiLetter z = true
              · rw [hzz] at hls0; simp at hls0
              · simpa using hzz
            rw [if_neg (by simpa using hds0)]
            simp only [List.takeWhile_cons, hz]
            simp
        · cases h

theorem cleanCh_mem {t : List Char} (hc : cleanCh t = true) {z : Char} (hz : z ∈ t) :
    z ≠ ';' ∧ z ≠ '\n' := by
  simp only [cleanCh, List.all_eq_true] at hc
  have := hc z hz
  simp only [Bool.and_eq_true, decide_eq_true_eq] at this
  exact this

theorem tiDeclParts_subMatch {t sd ls : List Char}
    (h : tiDeclParts t = some (sd, ls)) :
    tiSubMatchAt t = some (false, []) ∧
    (∀ r, tiSubMatchAt (t ++ ';' :: r) = some (true, r)) ∧
    tiSearchAt t = some (tiLit ++ sd, ls) ∧
    (∀ r, tiSearchAt (t ++ ';' :: r) = some (tiLit ++ sd, ls)) ∧
    t = tiLit ++ sd ++ ls := by
  unfold tiDeclParts at h
  rcases hsp : stripPre tiLit t with _ | r0
  · rw [hsp] at h; cases h
  · rw [hsp] at h
    simp only at h
    rcases hvp : tiValueParts r0 with _ | ⟨sd0, ls0, rest0⟩
    · rw [hvp] at h; cases h
    · rw [hvp] at h
      cases rest0 with
      | cons z zs => simp at h
      | nil =>
        simp only [Option.some.injEq, Prod.mk.injEq] at h
        obtain ⟨h1, h2⟩ := h
        subst h1 h2
        have heq := stripPre_eq hsp
        have hveq := tiValueParts_eq hvp
        refine ⟨?_, ?_, ?_, ?_, ?_⟩
        · simp [tiSubMatchAt, hsp, hvp]
        · intro r
          have he := tiValueParts_ext_semi (x := r) hvp
          simp only [List.nil_append] at he
          simp [tiSubMatchAt, stripPre_app _ hsp, he]
        · simp [tiSearchAt, hsp, hvp, termAfter]
        · intro r
          have he := tiValueParts_ext_semi (x := r) hvp
          simp only [List.nil_append] at he
          simp [tiSearchAt, stripPre_app _ hsp, he, termAfter]
        · rw [heq]
          have := hveq.1
          simp at this
          rw [this, List.append_assoc]

theorem tiNoDecl_subMatch {t : List Char} (hc : cleanCh t = true) (hd : tiDeclCh t = false) :
    tiSubMatchAt t = none ∧ (∀ r, tiSubMatchAt (t ++ ';' :: r) = none) ∧
    tiSearchAt t = none ∧ (∀ r, tiSearchAt (t ++ ';' :: r) = none) := by
  have hsemi : ';' ∉ tiLit := by decide
  unfold tiDeclCh tiDeclParts at hd
  rcases hsp : stripPre tiLit t with _ | r0
  · refine ⟨?_, fun r => ?_, ?_, fun r => ?_⟩
    · simp [tiSubMatchAt, hsp]
    · simp [tiSubMatchAt, stripPre_none_semi hsemi hsp]
    · simp [tiSearchAt, hsp]
    · simp [tiSearchAt, stripPre_none_semi hsemi hsp]
  · rw [hsp] at hd
    simp only at hd
    rcases hvp : tiValueParts r0 with _ | ⟨sd0, ls0, rest0⟩
    · refine ⟨?_, fun r => ?_, ?_, fun r => ?_⟩
      · simp [tiSubMatchAt, hsp, hvp]
      · simp [tiSubMatchAt, stripPre_app _ hsp, tiValueParts_none_semi _ hvp]
      · simp [tiSearchAt, hsp, hvp]
      · simp [tiSearchAt, stripPre_app _ hsp, tiValueParts_none_semi _ hvp]
    · rw [hvp] at hd
      cases rest0 with
      | nil => simp at hd
      | cons z zs =>
        have heq := stripPre_eq hsp
        have hveq := tiValueParts_eq hvp
        have hzmem : z ∈ t := by
          rw [heq, hveq.1]
          simp
        have hzc := cleanCh_mem hc hzmem
        refine ⟨?_, fun r => ?_, ?_, fun r => ?_⟩
        · simp [tiSubMatchAt, hsp, hvp, hzc.1, hzc.2]
        · have he := tiValueParts_ext_semi (x := r) hvp
          simp [tiSubMatchAt, stripPre_app _ hsp, he, hzc.1, hzc.2]
        · simp [tiSearchAt, hsp, hvp, termAfter, hzc.1, hzc.2]
        · have he := tiValueParts_ext_semi (x := r) hvp
          simp [tiSearchAt, stripPre_app _ hsp, he, termAfter, hzc.1, hzc.2]

theorem tiSubMatchAt_length {l : List Char} {semi : Bool} {rest : List Char}
    (h : tiSubMatchAt l = some (semi, rest)) : rest.length < l.length := by
  unfold tiSubMatchAt at h
  rcases hsp : stripPre tiLit l with _ | r0
  · rw [hsp] at h; cases h
  · rw [hsp] at h
    simp only at h
    have hlen := stripPre_length hsp
    rcases hvp : tiValueParts r0 with _ | ⟨sd0, ls0, rest0⟩
    · rw [hvp] at h; cases h
    · rw [hvp] at h
      have hveq := tiValueParts_eq hvp
      have hr0 : r0.length = sd0.length + ls0.length + rest0.length := by
        rw [hveq.1]; simp; omega
      have hsd : 1 ≤ sd0.length := by
        cases hx : sd0 with
        | nil => exact absurd hx hveq.2.1
        | cons a b => simp
      have hls : 1 ≤ ls0.length := by
        cases hx : ls0 with
        | nil => exact absurd hx hveq.2.2
        | cons a b => simp
      cases rest0 with
      | nil =>
        simp only [Option.some.injEq, Prod.mk.injEq] at h
        obtain ⟨h1, h2⟩ := h
        subst h2
        simp only [List.length_nil]
        have : 0 < tiLit.length := by decide
        omega
      | cons z zs =>
        simp only at h
        split at h
        · simp only [Option.some.injEq, Prod.mk.injEq] at h
          obtain ⟨h1, h2⟩ := h
          subst h2
          simp only [List.length_cons] at hr0
          omega
        · split at h
          · simp only [Option.some.injEq, Prod.mk.injEq] at h
            obtain ⟨h1, h2⟩ := h
            subst h2
            simp only [List.length_cons] at hr0 ⊢
            have : 0 < tiLit.length := by decide
            omega
          · cases h

theorem cw_subMatch :
    cwMatchAt cwLit = some [] ∧ (∀ r, cwMatchAt (cwLit ++ ';' :: r) = some r) := by
  have hsp : stripPre cwLit cwLit = some [] := by decide
  refine ⟨by decide, fun r => ?_⟩
  simp [cwMatchAt, stripPre_app _ hsp]

theorem cwNoTok_subMatch {t : List Char} (hc : cleanCh t = true) (hne : t ≠ cwLit) :
    cwMatchAt t = none ∧ (∀ r, cwMatchAt (t ++ ';' :: r) = none) := by
  have hsemi : ';' ∉ cwLit := by decide
  rcases hsp : stripPre cwLit t with _ | r0
  · refine ⟨?_, fun r => ?_⟩
    · simp [cwMatchAt, hsp]
    · simp [cwMatchAt, stripPre_none_semi hsemi hsp]
  · have heq := stripPre_eq hsp
    cases r0 with
    | nil => exact absurd (by simpa using heq) hne
    | cons z zs =>
      have hzc := cleanCh_mem hc (show z ∈ t by rw [heq]; simp)
      refine ⟨?_, fun r => ?_⟩
      · simp [cwMatchAt, hsp, hzc.1, hzc.2]
      · simp [cwMatchAt, stripPre_app _ hsp, hzc.1, hzc.2]

theorem cwMatchAt_length {l rest : List Char} (h : cwMatchAt l = some rest) :
    rest.length < l.length := by
  unfold cwMatchAt at h
  rcases hsp : stripPre cwLit l with _ | r0
  · rw [hsp] at h; cases h
  · rw [hsp] at h
    simp only at h
    have hlen := stripPre_length hsp
    have : 0 < cwLit.length := by decide
    cases r0 with
    | nil =>
      simp only [Option.some.injEq] at h
      subst h
      simp only [List.length_nil]
      omega
    | cons z zs =>
      simp only at h
      split at h
      · simp only [Option.some.injEq] at h
        subst h
        simp only [List.length_cons] at hlen
        omega
      · split at h
        · simp only [Option.some.injEq] at h
          subst h
          simp only [List.length_cons] at hlen ⊢
          omega
        · cases h

theorem joinCh_cons {t : List Char} {ts : List (List Char)} (h : ts ≠ []) :
    joinCh (t :: ts) = t ++ ';' :: joinCh ts := by
  cases ts with
  | nil => exact absurd rfl h
  | cons a b => rfl

theorem tiSubMatchAt_semi (x : List Char) : tiSubMatchAt (';' :: x) = none := by
  have : stripPre tiLit (';' :: x) = none := by
    show stripPre ('t' :: "ext-indent:".data) (';' :: x) = none
    simp [stripPre]
  simp [tiSubMatchAt, this]

theorem tiSearchAt_semi (x : List Char) : tiSearchAt (';' :: x) = none := by
  have : stripPre tiLit (';' :: x) = none := by
    show stripPre ('t' :: "ext-indent:".data) (';' :: x) = none
    simp [stripPre]
  simp [tiSearchAt, this]

theorem tiSubnGo_nil (n : Nat) (b : Bool) : tiSubnGo n b [] = ([], 0) := by
  cases n <;> rfl

theorem tiJoin_head_none {t : List Char} (tl : List (List Char))
    (hc : cleanCh t = true) (hd : tiDeclCh t = false) :
    tiSubMatchAt (joinCh (t :: tl)) = none ∧ tiSearchAt (joinCh (t :: tl)) = none := by
  have hm := tiNoDecl_subMatch hc hd
  cases tl with
  | nil => exact ⟨hm.1, hm.2.2.1⟩
  | cons a b => exact ⟨hm.2.1 _, hm.2.2.2 _⟩

theorem tiSubnGo_walk : ∀ (l r : List Char) (b : Bool) (n : Nat),
    cleanCh l = true →
    (b = true → l ≠ [] → tiSubMatchAt (l ++ r) = none) →
    (l ++ r).length ≤ n →
    tiSubnGo n b (l ++ r) =
      (l ++ (tiSubnGo (n - l.length) (l.isEmpty && b) r).1,
       (tiSubnGo (n - l.length) (l.isEmpty && b) r).2) := by
  intro l
  induction l with
  | nil => intro r b n _ _ _; simp
  | cons c cs ih =>
    intro r b n hc hnm hn
    cases n with
    | zero => simp at hn
    | succ m =>
      have hcc := cleanCh_mem hc (List.mem_cons_self c cs)
      have hcs : cleanCh cs = true := by
        simp only [cleanCh, List.all_eq_true] at hc ⊢
        exact fun z hz => hc z (List.mem_cons_of_mem _ hz)
      rw [show ((c :: cs) ++ r) = c :: (cs ++ r) from rfl]
      rw [tiSubnGo]
      have hb1 : (if b then tiSubMatchAt (c :: (cs ++ r)) else none) = none := by
        cases b with
        | false => rfl
        | true =>
          simp only [if_true]
          exact hnm rfl (by simp)
      have hb2 : (if c = ';' then tiSubMatchAt (cs ++ r) else none) = none := by
        rw [if_neg (by simpa using hcc.1)]
      rw [hb1]
      simp only
      rw [hb2]
      simp only
      have hrec := ih r (decide (c = '\n')) m hcs (by simp [hcc.2]) (by simpa using hn)
      have hbdec : (decide (c = '\n')) = false := by simpa using hcc.2
      rw [hbdec] at hrec
      rw [show (decide (c = '\n')) = false from hbdec]
      rw [hrec]
      simp only [Bool.and_false, List.isEmpty_cons, Bool.false_and]
      cases cs with
      | nil => simp
      | cons a as => simp [Nat.succ_sub_one]

theorem tiSubnGo_noDecl : ∀ (ts : List (List Char)) (b : Bool) (n : Nat),
    (∀ t ∈ ts, cleanCh t = true ∧ tiDeclCh t = false) →
    (joinCh ts).length ≤ n →
    tiSubnGo n b (joinCh ts) = (joinCh ts, 0) := by
  intro ts
  induction ts with
  | nil => intro b n _ _; simpa [joinCh] using tiSubnGo_nil n b
  | cons t tl ih =>
    intro b n h hn
    have ht := h t (by simp)
    have hm := tiNoDecl_subMatch ht.1 ht.2
    cases tl with
    | nil =>
      have hwalk := tiSubnGo_walk t [] b n ht.1
        (fun _ _ => by simpa using hm.1) (by simpa [joinCh] using hn)
      simp only [joinCh, List.append_nil] at hwalk ⊢
      rw [hwalk, tiSubnGo_nil]
      simp
    | cons t2 tl2 =>
      rw [joinCh_cons (by simp)] at hn ⊢
      have hwalk := tiSubnGo_walk t (';' :: joinCh (t2 :: tl2)) b n ht.1
        (fun _ _ => hm.2.1 _) hn
      rw [hwalk]
      have hlen : 1 + (joinCh (t2 :: tl2)).length ≤ n - t.length := by
        simp only [List.length_append, List.length_cons] at hn
        omega
      rcases hfuel : n - t.length with _ | m
      · omega
      · rw [tiSubnGo]
        have ht2 := h t2 (by simp)
        have hm2 := tiJoin_head_none tl2 ht2.1 ht2.2
        rw [tiSubMatchAt_semi, hm2.1]
        simp only [ite_self]
        rw [show (decide ((';' : Char) = '\n')) = false from by decide]
        rw [ih false m (fun u hu => h u (List.mem_cons_of_mem _ hu)) (by omega)]

theorem tiSubnGo_single : ∀ (ts1 : List (List Char)) (t : List Char)
    (ts2 : List (List Char)) (b : Bool) (n : Nat),
    (∀ u ∈ ts1, cleanCh u = true ∧ tiDeclCh u = false) →
    cleanCh t = true → tiDeclCh t = true →
    (∀ u ∈ ts2, cleanCh u = true ∧ tiDeclCh u = false) →
    (b = true ∨ ts1 ≠ []) →
    (joinCh (ts1 ++ t :: ts2)).length ≤ n →
    tiSubnGo n b (joinCh (ts1 ++ t :: ts2)) = (joinCh (ts1 ++ tiRepl :: ts2), 1) := by
  intro ts1
  induction ts1 with
  | nil =>
    intro t ts2 b n _ hct hdt hts2 hb hn
    have hbt : b = true := by
      rcases hb with h | h
      · exact h
      · exact absurd rfl h
    subst hbt
    obtain ⟨⟨sd, ls⟩, hparts⟩ := Option.isSome_iff_exists.mp (by simpa [tiDeclCh] using hdt)
    have hM := tiDeclParts_subMatch hparts
    have htne : t ≠ [] := by
      rw [hM.2.2.2.2]
      intro h0
      rcases List.append_eq_nil.mp h0 with ⟨h1, _⟩
      rcases List.append_eq_nil.mp h1 with ⟨h2, _⟩
      exact absurd h2 (by decide)
    cases ts2 with
    | nil =>
      simp only [List.nil_append, joinCh] at hn ⊢
      cases ht : t with
      | nil => exact absurd ht htne
      | cons c cs =>
        rw [ht] at hn
        cases n with
        | zero => simp at hn
        | succ m =>
          rw [tiSubnGo]
          rw [← ht, show (if true = true then tiSubMatchAt t else none) = some (false, []) from
            by rw [hM.1]; simp]
          simp only
          rw [tiSubnGo_nil]
          simp
    | cons t2 tl2 =>
      rw [List.nil_append, joinCh_cons (by simp)] at hn ⊢
      rcases ht : t with _ | ⟨c, cs⟩
      · exact absurd ht htne
      · rw [← ht]
        cases n with
        | zero => rw [ht] at hn; simp at hn
        | succ m =>
          rw [show (t ++ ';' :: joinCh (t2 :: tl2)) = c :: (cs ++ ';' :: joinCh (t2 :: tl2))
            from by rw [ht]; rfl]
          rw [tiSubnGo]
          rw [show (c :: (cs ++ ';' :: joinCh (t2 :: tl2))) = (t ++ ';' :: joinCh (t2 :: tl2))
            from by rw [ht]; rfl]
          rw [hM.2.1]
          have hrec := tiSubnGo_noDecl (t2 :: tl2) false m hts2 (by
            rw [ht] at hn
            simp only [List.length_cons, List.length_append] at hn ⊢
            omega)
          simp [hrec, joinCh_cons]
  | cons t1 tl1 ih =>
    intro t ts2 b n h1 hct hdt hts2 _ hn
    have ht1 := h1 t1 (by simp)
    have hm1 := tiNoDecl_subMatch ht1.1 ht1.2
    rw [show ((t1 :: tl1) ++ t :: ts2) = t1 :: (tl1 ++ t :: ts2) from rfl] at hn ⊢
    rw [joinCh_cons (by simp)] at hn ⊢
    have hwalk := tiSubnGo_walk t1 (';' :: joinCh (tl1 ++ t :: ts2)) b n ht1.1
      (fun _ _ => hm1.2.1 _) hn
    rw [hwalk]
    have hlen : 1 + (joinCh (tl1 ++ t :: ts2)).length ≤ n - t1.length := by
      simp only [List.length_append, List.length_cons] at hn
      omega
    rcases hfuel : n - t1.length with _ | m
    · omega
    · rw [tiSubnGo]
      rw [tiSubMatchAt_semi]
      simp only [ite_self]
      cases tl1 with
      | nil =>
        simp only [List.nil_append] at *
        obtain ⟨⟨sd, ls⟩, hparts⟩ := Option.isSome_iff_exists.mp (by simpa [tiDeclCh] using hdt)
        have hM := tiDeclParts_subMatch hparts
        cases ts2 with
        | nil =>
          simp only [joinCh] at *
          rw [hM.1]
          simp [tiSubnGo_nil, joinCh]
        | cons t2 tl2 =>
          rw [joinCh_cons (show ((t2 :: tl2 : List (List Char)) ≠ []) from by simp)] at *
          rw [hM.2.1]
          have hrec := tiSubnGo_noDecl (t2 :: tl2) false m hts2 (by
            simp only [List.length_append, List.length_cons] at hlen ⊢
            omega)
          simp [hrec, joinCh_cons]
      | cons u tl1b =>
        have hu := h1 u (by simp)
        have hmu := tiJoin_head_none (tl1b ++ t :: ts2) hu.1 hu.2
        rw [show ((u :: tl1b) ++ t :: ts2) = u :: (tl1b ++ t :: ts2) from rfl] at *
        rw [hmu.1]
        have hrec := ih t ts2 false m (fun v hv => h1 v (List.mem_cons_of_mem _ hv)) hct hdt
          hts2 (Or.inr (by simp)) (by
            rw [show ((u :: tl1b) ++ t :: ts2) = u :: (tl1b ++ t :: ts2) from rfl,
              joinCh_cons (show ((tl1b ++ t :: ts2 : List (List Char)) ≠ []) from by simp)]
            rw [joinCh_cons (show ((tl1b ++ t :: ts2 : List (List Char)) ≠ []) from by simp)]
              at hlen
            simp only [List.length_cons, List.length_append] at hlen ⊢
            omega)
        rw [show ((u :: tl1b) ++ t :: ts2) = u :: (tl1b ++ t :: ts2) from rfl,
          show ((u :: tl1b) ++ tiRepl :: ts2) = u :: (tl1b ++ tiRepl :: ts2) from rfl,
          joinCh_cons (show ((tl1b ++ t :: ts2 : List (List Char)) ≠ []) from by simp),
          joinCh_cons (show ((tl1b ++ tiRepl :: ts2 : List (List Char)) ≠ []) from by simp)]
          at hrec
        simp [hrec, joinCh_cons]

theorem tiSearchGo_found {l : List Char} {g : List Char × List Char}
    (hne : l ≠ []) (h : tiSearchAt l = some g) : tiSearchGo true l = some g := by
  cases l with
  | nil => exact absurd rfl hne
  | cons c cs =>
    rw [tiSearchGo]
    simp [h]

theorem tiSearchGo_walk : ∀ (l r : List Char) (b : Bool),
    cleanCh l = true →
    (b = true → l ≠ [] → tiSearchAt (l ++ r) = none) →
    tiSearchGo b (l ++ r) = tiSearchGo (l.isEmpty && b) r := by
  intro l
  induction l with
  | nil => intro r b _ _; simp
  | cons c cs ih =>
    intro r b hc hnm
    have hcc := cleanCh_mem hc (List.mem_cons_self c cs)
    have hcs : cleanCh cs = true := by
      simp only [cleanCh, List.all_eq_true] at hc ⊢
      exact fun z hz => hc z (List.mem_cons_of_mem _ hz)
    rw [show ((c :: cs) ++ r) = c :: (cs ++ r) from rfl]
    rw [tiSearchGo]
    have hb1 : (if b then tiSearchAt (c :: (cs ++ r)) else none) = none := by
      cases b with
      | false => rfl
      | true =>
        simp only [if_true]
        exact hnm rfl (by simp)
    have hb2 : (if c = ';' then tiSearchAt (cs ++ r) else none) = none := by
      rw [if_neg (by simpa using hcc.1)]
    rw [hb1]
    simp only
    rw [hb2]
    simp only
    have hrec := ih r (decide (c = '\n')) hcs (by simp [hcc.2])
    have hbdec : (decide (c = '\n')) = false := by simpa using hcc.2
    rw [hbdec] at hrec
    rw [show (decide (c = '\n')) = false from hbdec]
    rw [hrec]
    simp

theorem tiDeclParts_ne_nil {t sd ls : List Char} (h : tiDeclParts t = some (sd, ls)) :
    t ≠ [] := by
  have hM := tiDeclParts_subMatch h
  rw [hM.2.2.2.2]
  intro h0
  rcases List.append_eq_nil.mp h0 with ⟨h1, _⟩
  rcases List.append_eq_nil.mp h1 with ⟨h2, _⟩
  exact absurd h2 (by decide)

theorem tiSearchGo_single : ∀ (ts1 : List (List Char)) (t sd ls : List Char)
    (ts2 : List (List Char)) (b : Bool),
    (∀ u ∈ ts1, cleanCh u = true ∧ tiDeclCh u = false) →
    tiDeclParts t = some (sd, ls) →
    (b = true ∨ ts1 ≠ []) →
    tiSearchGo b (joinCh (ts1 ++ t :: ts2)) = some (tiLit ++ sd, ls) := by
  intro ts1
  induction ts1 with
  | nil =>
    intro t sd ls ts2 b _ hparts hb
    have hbt : b = true := by
      rcases hb with h | h
      · exact h
      · exact absurd rfl h
    subst hbt
    have hM := tiDeclParts_subMatch hparts
    have htne := tiDeclParts_ne_nil hparts
    cases ts2 with
    | nil =>
      simp only [List.nil_append, joinCh]
      exact tiSearchGo_found htne hM.2.2.1
    | cons t2 tl2 =>
      rw [List.nil_append, joinCh_cons (by simp)]
      exact tiSearchGo_found (by simp [htne]) (hM.2.2.2.1 _)
  | cons t1 tl1 ih =>
    intro t sd ls ts2 b h1 hparts _
    have ht1 := h1 t1 (by simp)
    have hm1 := tiNoDecl_subMatch ht1.1 ht1.2
    rw [show ((t1 :: tl1) ++ t :: ts2) = t1 :: (tl1 ++ t :: ts2) from rfl]
    rw [joinCh_cons (by simp)]
    rw [tiSearchGo_walk t1 (';' :: joinCh (tl1 ++ t :: ts2)) b ht1.1
      (fun _ _ => hm1.2.2.2 _)]
    rw [tiSearchGo]
    have hb1 : (if (t1.isEmpty && b) then tiSearchAt (';' :: joinCh (tl1 ++ t :: ts2))
        else none) = none := by
      cases (t1.isEmpty && b) <;> simp [tiSearchAt_semi]
    rw [hb1]
    simp only
    cases tl1 with
    | nil =>
      simp only [List.nil_append]
      have hM := tiDeclParts_subMatch hparts
      have htne := tiDeclParts_ne_nil hparts
      have hhit : tiSearchAt (joinCh (t :: ts2)) = some (tiLit ++ sd, ls) := by
        cases ts2 with
        | nil => exact hM.2.2.1
        | cons t2 tl2 =>
          rw [joinCh_cons (by simp)]
          exact hM.2.2.2.1 _
      simp [hhit]
    | cons u tl1b =>
      have hu := h1 u (by simp)
      have hmu := tiJoin_head_none (tl1b ++ t :: ts2) hu.1 hu.2
      rw [show ((u :: tl1b) ++ t :: ts2) = u :: (tl1b ++ t :: ts2) from rfl]
      rw [hmu.2]
      simp only [ite_self]
      have hrec := ih t sd ls ts2 false
        (fun v hv => h1 v (List.mem_cons_of_mem _ hv)) hparts (Or.inr (by simp))
      rw [show ((u :: tl1b) ++ t :: ts2) = u :: (tl1b ++ t :: ts2) from rfl] at hrec
      rw [show (decide ((';' : Char) = '\n')) = false from by decide]
      exact hrec

theorem cwMatchAt_semi (x : List Char) : cwMatchAt (';' :: x) = none := by
  have : stripPre cwLit (';' :: x) = none := by
    show stripPre ('c' :: "olor:white".data) (';' :: x) = none
    simp [stripPre]
  simp [cwMatchAt, this]

theorem cwSubnGo_nil (n : Nat) (b : Bool) : cwSubnGo n b [] = ([], 0) := by
  cases n <;> rfl

theorem cwJoin_head_none {t : List Char} (tl : List (List Char))
    (hc : cleanCh t = true) (hne : t ≠ cwLit) :
    cwMatchAt (joinCh (t :: tl)) = none := by
  have hm := cwNoTok_subMatch hc hne
  cases tl with
  | nil => exact hm.1
  | cons a b => exact hm.2 _

theorem cwSubnGo_walk : ∀ (l r : List Char) (b : Bool) (n : Nat),
    cleanCh l = true →
    (b = true → l ≠ [] → cwMatchAt (l ++ r) = none) →
    (l ++ r).length ≤ n →
    cwSubnGo n b (l ++ r) =
      (l ++ (cwSubnGo (n - l.length) (l.isEmpty && b) r).1,
       (cwSubnGo (n - l.length) (l.isEmpty && b) r).2) := by
  intro l
  induction l with
  | nil => intro r b n _ _ _; simp
  | cons c cs ih =>
    intro r b n hc hnm hn
    cases n with
    | zero => simp at hn
    | succ m =>
      have hcc := cleanCh_mem hc (List.mem_cons_self c cs)
      have hcs : cleanCh cs = true := by
        simp only [cleanCh, List.all_eq_true] at hc ⊢
        exact fun z hz => hc z (List.mem_cons_of_mem _ hz)
      rw [show ((c :: cs) ++ r) = c :: (cs ++ r) from rfl]
      rw [cwSubnGo]
      have hb1 : (if b then cwMatchAt (c :: (cs ++ r)) else none) = none := by
        cases b with
        | false => rfl
        | true =>
          simp only [if_true]
          exact hnm rfl (by simp)
      have hb2 : (if c = ';' then cwMatchAt (cs ++ r) else none) = none := by
        rw [if_neg (by simpa using hcc.1)]
      rw [hb1]
      simp only
      rw [hb2]
      simp only
      have hrec := ih r (decide (c = '\n')) m hcs (by simp [hcc.2]) (by simpa using hn)
      have hbdec : (decide (c = '\n')) = false := by simpa using hcc.2
      rw [hbdec] at hrec
      rw [show (decide (c = '\n')) = false from hbdec]
      rw [hrec]
      simp only [Bool.and_false, List.isEmpty_cons, Bool.false_and]
      cases cs with
      | nil => simp
      | cons a as => simp [Nat.succ_sub_one]

theorem cwSubnGo_noTok : ∀ (ts : List (List Char)) (b : Bool) (n : Nat),
    (∀ t ∈ ts, cleanCh t = true ∧ t ≠ cwLit) →
    (joinCh ts).length ≤ n →
    cwSubnGo n b (joinCh ts) = (joinCh ts, 0) := by
  intro ts
  induction ts with
  | nil => intro b n _ _; simpa [joinCh] using cwSubnGo_nil n b
  | cons t tl ih =>
    intro b n h hn
    have ht := h t (by simp)
    have hm := cwNoTok_subMatch ht.1 ht.2
    cases tl with
    | nil =>
      have hwalk := cwSubnGo_walk t [] b n ht.1
        (fun _ _ => by simpa using hm.1) (by simpa [joinCh] using hn)
      simp only [joinCh, List.append_nil] at hwalk ⊢
      rw [hwalk, cwSubnGo_nil]
      simp
    | cons t2 tl2 =>
      rw [joinCh_cons (by simp)] at hn ⊢
      have hwalk := cwSubnGo_walk t (';' :: joinCh (t2 :: tl2)) b n ht.1
        (fun _ _ => hm.2 _) hn
      rw [hwalk]
      have hlen : 1 + (joinCh (t2 :: tl2)).length ≤ n - t.length := by
        simp only [List.length_append, List.length_cons] at hn
        omega
      rcases hfuel : n - t.length with _ | m
      · omega
      · rw [cwSubnGo]
        have ht2 := h t2 (by simp)
        have hm2 := cwJoin_head_none tl2 ht2.1 ht2.2
        rw [cwMatchAt_semi, hm2]
        simp only [ite_self]
        rw [show (decide ((';' : Char) = '\n')) = false from by decide]
        rw [ih false m (fun u hu => h u (List.mem_cons_of_mem _ hu)) (by omega)]

theorem cwSubnGo_single : ∀ (ts1 ts2 : List (List Char)) (b : Bool) (n : Nat),
    (∀ u ∈ ts1, cleanCh u = true ∧ u ≠ cwLit) →
    (∀ u ∈ ts2, cleanCh u = true ∧ u ≠ cwLit) →
    (b = true ∨ ts1 ≠ []) →
    (joinCh (ts1 ++ cwLit :: ts2)).length ≤ n →
    cwSubnGo n b (joinCh (ts1 ++ cwLit :: ts2)) = (joinCh ts1 ++ joinCh ts2, 1) := by
  intro ts1
  induction ts1 with
  | nil =>
    intro ts2 b n _ hts2 hb hn
    have hbt : b = true := by
      rcases hb with h | h
      · exact h
      · exact absurd rfl h
    subst hbt
    have htne : cwLit ≠ [] := by decide
    cases ts2 with
    | nil =>
      simp only [List.nil_append, joinCh] at hn ⊢
      cases hcw : cwLit with
      | nil => exact absurd hcw htne
      | cons c cs =>
        rw [hcw] at hn
        cases n with
        | zero => simp at hn
        | succ m =>
          rw [← hcw]
          rw [show (cwLit : List Char) = c :: cs from hcw]
          rw [cwSubnGo]
          rw [show (c :: cs : List Char) = cwLit from hcw.symm]
          rw [cw_subMatch.1]
          simp [cwSubnGo_nil, joinCh]
    | cons t2 tl2 =>
      rw [List.nil_append, joinCh_cons (by simp)] at hn ⊢
      cases hcw : cwLit with
      | nil => exact absurd hcw htne
      | cons c cs =>
        rw [← hcw]
        cases n with
        | zero => rw [hcw] at hn; simp at hn
        | succ m =>
          rw [show (cwLit ++ ';' :: joinCh (t2 :: tl2)) = c :: (cs ++ ';' :: joinCh (t2 :: tl2))
            from by rw [hcw]; rfl]
          rw [cwSubnGo]
          rw [show (c :: (cs ++ ';' :: joinCh (t2 :: tl2))) = (cwLit ++ ';' :: joinCh (t2 :: tl2))
            from by rw [hcw]; rfl]
          rw [cw_subMatch.2]
          have hrec := cwSubnGo_noTok (t2 :: tl2) false m hts2 (by
            rw [hcw] at hn
            simp only [List.length_cons, List.length_append] at hn ⊢
            omega)
          simp [hrec, joinCh]
  | cons t1 tl1 ih =>
    intro ts2 b n h1 hts2 _ hn
    have ht1 := h1 t1 (by simp)
    have hm1 := cwNoTok_subMatch ht1.1 ht1.2
    rw [show ((t1 :: tl1) ++ cwLit :: ts2) = t1 :: (tl1 ++ cwLit :: ts2) from rfl] at hn ⊢
    rw [joinCh_cons (by simp)] at hn ⊢
    have hwalk := cwSubnGo_walk t1 (';' :: joinCh (tl1 ++ cwLit :: ts2)) b n ht1.1
      (fun _ _ => hm1.2 _) hn
    rw [hwalk]
    have hlen : 1 + (joinCh (tl1 ++ cwLit :: ts2)).length ≤ n - t1.length := by
      simp only [List.length_append, List.length_cons] at hn
      omega
    rcases hfuel : n - t1.length with _ | m
    · omega
    · rw [cwSubnGo]
      rw [cwMatchAt_semi]
      simp only [ite_self]
      cases tl1 with
      | nil =>
        simp only [List.nil_append] at *
        cases ts2 with
        | nil =>
          simp only [joinCh] at *
          rw [cw_subMatch.1]
          simp [cwSubnGo_nil, joinCh]
        | cons t2 tl2 =>
          rw [joinCh_cons (show ((t2 :: tl2 : List (List Char)) ≠ []) from by simp)] at *
          rw [cw_subMatch.2]
          have hrec := cwSubnGo_noTok (t2 :: tl2) false m hts2 (by
            simp only [List.length_append, List.length_cons] at hlen ⊢
            omega)
          simp [hrec, joinCh]
      | cons u tl1b =>
        have hu := h1 u (by simp)
        have hmu := cwJoin_head_none (tl1b ++ cwLit :: ts2) hu.1 hu.2
        rw [show ((u :: tl1b) ++ cwLit :: ts2) = u :: (tl1b ++ cwLit :: ts2) from rfl] at *
        rw [hmu]
        have hrec := ih ts2 false m (fun v hv => h1 v (List.mem_cons_of_mem _ hv)) hts2
          (Or.inr (by simp)) (by
            rw [show ((u :: tl1b) ++ cwLit :: ts2) = u :: (tl1b ++ cwLit :: ts2) from rfl,
              joinCh_cons (show ((tl1b ++ cwLit :: ts2 : List (List Char)) ≠ []) from by simp)]
            rw [joinCh_cons (show ((tl1b ++ cwLit :: ts2 : List (List Char)) ≠ []) from by simp)]
              at hlen
            simp only [List.length_cons, List.length_append] at hlen ⊢
            omega)
        rw [show ((u :: tl1b) ++ cwLit :: ts2) = u :: (tl1b ++ cwLit :: ts2) from rfl,
          joinCh_cons (show ((tl1b ++ cwLit :: ts2 : List (List Char)) ≠ []) from by simp)]
          at hrec
        simp [hrec, joinCh_cons]

theorem data_mk (l : List Char) : (String.mk l).data = l := rfl

theorem mkStr_append (a b : List Char) : String.mk a ++ String.mk b = String.mk (a ++ b) := rfl

theorem tiSubn_single (ts1 : List String) (t : String) (ts2 : List String)
    (h1 : ∀ u ∈ ts1, cleanCh u.data = true ∧ tiDeclCh u.data = false)
    (hct : cleanCh t.data = true) (hdt : tiDeclCh t.data = true)
    (h2 : ∀ u ∈ ts2, cleanCh u.data = true ∧ tiDeclCh u.data = false) :
    tiSubn (joinStyle (ts1 ++ t :: ts2)) =
      (joinStyle (ts1 ++ "text-indent:-.25in" :: ts2), 1) := by
  have h1m : ∀ u ∈ ts1.map String.data, cleanCh u = true ∧ tiDeclCh u = false := by
    intro u hu
    rcases List.mem_map.mp hu with ⟨v, hv, he⟩
    exact he ▸ h1 v hv
  have h2m : ∀ u ∈ ts2.map String.data, cleanCh u = true ∧ tiDeclCh u = false := by
    intro u hu
    rcases List.mem_map.mp hu with ⟨v, hv, he⟩
    exact he ▸ h2 v hv
  have hkey := tiSubnGo_single (ts1.map String.data) t.data (ts2.map String.data) true
    (joinCh (ts1.map String.data ++ t.data :: ts2.map String.data)).length
    h1m hct hdt h2m (Or.inl rfl) (le_refl _)
  simp only [tiSubn, joinStyle, List.map_append, List.map_cons, data_mk]
  rw [hkey]
  simp [tiRepl]

theorem tiSearch_single (ts1 : List String) (t : String) (sd ls : List Char)
    (ts2 : List String)
    (h1 : ∀ u ∈ ts1, cleanCh u.data = true ∧ tiDeclCh u.data = false)
    (hparts : tiDeclParts t.data = some (sd, ls)) :
    tiSearch (joinStyle (ts1 ++ t :: ts2)) = some (String.mk (tiLit ++ sd), String.mk ls) := by
  have h1m : ∀ u ∈ ts1.map String.data, cleanCh u = true ∧ tiDeclCh u = false := by
    intro u hu
    rcases List.mem_map.mp hu with ⟨v, hv, he⟩
    exact he ▸ h1 v hv
  have hkey := tiSearchGo_single (ts1.map String.data) t.data sd ls (ts2.map String.data)
    true h1m hparts (Or.inl rfl)
  simp only [tiSearch, joinStyle, List.map_append, List.map_cons, data_mk]
  rw [hkey]

theorem cwSubn_single (ts1 ts2 : List String)
    (h1 : ∀ u ∈ ts1, cleanCh u.data = true ∧ u ≠ "color:white")
    (h2 : ∀ u ∈ ts2, cleanCh u.data = true ∧ u ≠ "color:white") :
    cwSubn (joinStyle (ts1 ++ "color:white" :: ts2)) = (joinStyle ts1 ++ joinStyle ts2, 1) := by
  have hconv : ∀ (u : String), u ≠ "color:white" → u.data ≠ cwLit := by
    intro u hne heq
    exact hne (by rw [← show String.mk u.data = u from rfl, heq]; rfl)
  have h1m : ∀ u ∈ ts1.map String.data, cleanCh u = true ∧ u ≠ cwLit := by
    intro u hu
    rcases List.mem_map.mp hu with ⟨v, hv, he⟩
    exact he ▸ ⟨(h1 v hv).1, hconv v (h1 v hv).2⟩
  have h2m : ∀ u ∈ ts2.map String.data, cleanCh u = true ∧ u ≠ cwLit := by
    intro u hu
    rcases List.mem_map.mp hu with ⟨v, hv, he⟩
    exact he ▸ ⟨(h2 v hv).1, hconv v (h2 v hv).2⟩
  have hkey := cwSubnGo_single (ts1.map String.data) (ts2.map String.data) true
    (joinCh (ts1.map String.data ++ cwLit :: ts2.map String.data)).length
    h1m h2m (Or.inl rfl) (le_refl _)
  simp only [show (cwLit : List Char) = "color:white".data from rfl] at hkey
  simp only [cwSubn, joinStyle, List.map_append, List.map_cons, data_mk]
  rw [hkey]
  simp [joinStyle, mkStr_append]

theorem fixOrderedPara_canonical (aPre aEnd attrs : List (String × AttrVal))
    (sPre sym sEnd txt : String) (ts1 ts2 : List String) (t : String) (sd ls : List Char)
    (hPreSt : hasAttr aPre "style" = true) (hPre : nbspOnlyText sPre = true)
    (hEndSt : hasAttr aEnd "style" = true) (hEnd : nbspOnlyText sEnd = true)
    (hSym : symbolMatch sym = true)
    (hstyle : getAttr attrs "style" = some (AttrVal.str (joinStyle (ts1 ++ t :: ts2))))
    (h1 : ∀ u ∈ ts1, cleanCh u.data = true ∧ tiDeclCh u.data = false)
    (hct : cleanCh t.data = true) (hparts : tiDeclParts t.data = some (sd, ls))
    (h2 : ∀ u ∈ ts2, cleanCh u.data = true ∧ tiDeclCh u.data = false) :
    fixOrderedPara (Node.elem "p" attrs
      [Node.elem "span" aPre [Node.text sPre], Node.text sym,
       Node.elem "span" aEnd [Node.text sEnd], Node.text txt]) =
    OrdOutcome.fixed (Node.elem "p"
        (setAttr attrs "style" (AttrVal.str (joinStyle (ts1 ++ "text-indent:-.25in" :: ts2))))
        [Node.text sym, Node.elem "span" aEnd [scriptWrap sixNbspEntities], Node.text txt])
      (if String.mk ls ≠ "in" then some (String.mk (tiLit ++ sd) ++ String.mk ls)
       else none) := by
  have hdt : tiDeclCh t.data = true := by simp [tiDeclCh, hparts]
  have hsearch := tiSearch_single ts1 t sd ls ts2 h1 hparts
  have hsubn := tiSubn_single ts1 t ts2 h1 hct hdt h2
  have htn : textNodesNode (Node.elem "p" attrs
      [Node.elem "span" aPre [Node.text sPre], Node.text sym,
       Node.elem "span" aEnd [Node.text sEnd], Node.text txt]) =
      [([0, 0], sPre), ([1], sym), ([2, 0], sEnd), ([3], txt)] := rfl
  unfold fixOrderedPara
  rw [htn]
  simp only [List.dropLast]
  have hfa : (match getAtNode (Node.elem "p" attrs
      [Node.elem "span" aPre [Node.text sPre], Node.text sym,
       Node.elem "span" aEnd [Node.text sEnd], Node.text txt]) [0] with
      | some n => spanOnlySpaces n
      | none => false) = true := by
    simp [getAtNode, getFrag, spanOnlySpaces, hPreSt, hPre]
  rw [hfa]
  simp only [if_true]
  unfold fixOrderedCore
  rw [if_neg (by simp [hSym])]
  simp only [List.dropLast]
  have hge : getAtNode (Node.elem "p" attrs
      [Node.elem "span" aPre [Node.text sPre], Node.text sym,
       Node.elem "span" aEnd [Node.text sEnd], Node.text txt]) [2] =
      some (Node.elem "span" aEnd [Node.text sEnd]) := rfl
  have hsos : spanOnlySpaces (Node.elem "span" aEnd [Node.text sEnd]) = true := by
    simp [spanOnlySpaces, hEndSt, hEnd]
  have hrm : removeAtNode (setAtNode (Node.elem "p" attrs
      [Node.elem "span" aPre [Node.text sPre], Node.text sym,
       Node.elem "span" aEnd [Node.text sEnd], Node.text txt]) [2, 0]
      (scriptWrap sixNbspEntities)) [0] =
      Node.elem "p" attrs
        [Node.text sym, Node.elem "span" aEnd [scriptWrap sixNbspEntities], Node.text txt] := rfl
  simp +decide [List.dropLast, hge, hsos, hstyle, hsearch, hsubn, hrm]

/-- C7 counterexample: removing the color:white token from the style value
color:black;color:white;font-family:Arial deletes the token together with
BOTH adjacent separators, merging the two neighbouring declarations into
color:blackfont-family:Arial, so the other declarations are not left
intact. -/
theorem claim_C7_counterexample :
    cwSubn "color:black;color:white;font-family:Arial" =
      ("color:blackfont-family:Arial", 1) ∧
    whiteTextPass WhitePolicy.removeAll
      [Node.elem "span"
        [("style", AttrVal.str "color:black;color:white;font-family:Arial")]
        [Node.text "x"]] =
      some ([Node.elem "span" [("style", AttrVal.str "color:blackfont-family:Arial")]
        [Node.text "x"]], 0, 1) ∧
    ("color:blackfont-family:Arial" : String) ≠ "color:black;font-family:Arial" := by
  refine ⟨by decide, by decide, by decide⟩

/-- C7 as amended: on a style value whose tokens are clean, the removal of a
single color:white token deletes the token and BOTH adjacent separators (the
boundary semicolon and the terminator semicolon), concatenating the
neighbouring token runs, with exactly one substitution; and whenever the
substitution count differs from one on a stripped span whose style is not
exactly color:white, the white-text step returns the fatal error
indicator. -/
theorem claim_C7 (ts1 ts2 : List String)
    (h1 : ∀ u ∈ ts1, cleanCh u.data = true ∧ u ≠ "color:white")
    (h2 : ∀ u ∈ ts2, cleanCh u.data = true ∧ u ≠ "color:white") :
    cwSubn (joinStyle (ts1 ++ "color:white" :: ts2)) = (joinStyle ts1 ++ joinStyle ts2, 1) ∧
    (∀ (policy : WhitePolicy) (frag : List Node) (nU nN : Nat) (pp : Path) (flag : Bool)
        (tg : String) (a : List (String × AttrVal)) (cs : List Node) (style : String),
      getFrag frag pp = some (Node.elem tg a cs) →
      getAttr a "style" = some (AttrVal.str style) →
      whiteStrip policy flag = true → style ≠ "color:white" → (cwSubn style).2 ≠ 1 →
      whiteStep policy (some (frag, nU, nN)) (pp, flag) = none) := by
  refine ⟨cwSubn_single ts1 ts2 h1 h2, ?_⟩
  intro policy frag nU nN pp flag tg a cs style hg ha hstrip hne hcnt
  simp [whiteStep, hstrip, hg, ha, hne, hcnt]

/-- Witness for C7 at a concrete style value and a concrete fatal
configuration. -/
theorem claim_C7_witness :
    cwSubn (joinStyle (["color:black"] ++ "color:white" :: ["font-family:Arial"])) =
      (joinStyle ["color:black"] ++ joinStyle ["font-family:Arial"], 1) ∧
    whiteStep WhitePolicy.removeAll
      (some ([Node.elem "span" [("style", AttrVal.str "color:white;;color:white")] []], 0, 0))
      ([0], false) = none := by
  have h := claim_C7 ["color:black"] ["font-family:Arial"] (by decide) (by decide)
  exact ⟨h.1, h.2 WhitePolicy.removeAll
    [Node.elem "span" [("style", AttrVal.str "color:white;;color:white")] []] 0 0 [0] false
    "span" [("style", AttrVal.str "color:white;;color:white")] []
    "color:white;;color:white" (by decide) (by decide) (by decide) (by decide) (by decide)⟩

theorem fixOrderedPara_canonicalNoPre (aEnd attrs : List (String × AttrVal))
    (sym sEnd txt : String) (ts1 ts2 : List String) (t : String) (sd ls : List Char)
    (hEndSt : hasAttr aEnd "style" = true) (hEnd : nbspOnlyText sEnd = true)
    (hSym : symbolMatch sym = true)
    (hstyle : getAttr attrs "style" = some (AttrVal.str (joinStyle (ts1 ++ t :: ts2))))
    (h1 : ∀ u ∈ ts1, cleanCh u.data = true ∧ tiDeclCh u.data = false)
    (hct : cleanCh t.data = true) (hparts : tiDeclParts t.data = some (sd, ls))
    (h2 : ∀ u ∈ ts2, cleanCh u.data = true ∧ tiDeclCh u.data = false) :
    fixOrderedPara (Node.elem "p" attrs
      [Node.text sym, Node.elem "span" aEnd [Node.text sEnd], Node.text txt]) =
    OrdOutcome.fixed (Node.elem "p"
        (setAttr attrs "style" (AttrVal.str (joinStyle (ts1 ++ "text-indent:-.25in" :: ts2))))
        [Node.text sym, Node.elem "span" aEnd [scriptWrap sixNbspEntities], Node.text txt])
      (if String.mk ls ≠ "in" then some (String.mk (tiLit ++ sd) ++ String.mk ls)
       else none) := by
  have hdt : tiDeclCh t.data = true := by simp [tiDeclCh, hparts]
  have hsearch := tiSearch_single ts1 t sd ls ts2 h1 hparts
  have hsubn := tiSubn_single ts1 t ts2 h1 hct hdt h2
  have htn : textNodesNode (Node.elem "p" attrs
      [Node.text sym, Node.elem "span" aEnd [Node.text sEnd], Node.text txt]) =
      [([0], sym), ([1, 0], sEnd), ([2], txt)] := rfl
  unfold fixOrderedPara
  rw [htn]
  simp only [List.dropLast]
  have hfa : (match getAtNode (Node.elem "p" attrs
      [Node.text sym, Node.elem "span" aEnd [Node.text sEnd], Node.text txt])
      ([] : Path) with
      | some n => spanOnlySpaces n
      | none => false) = false := by
    simp [getAtNode, spanOnlySpaces]
  rw [hfa]
  simp only [Bool.false_eq_true, if_false]
  unfold fixOrderedCore
  rw [if_neg (by simp [hSym])]
  simp only [List.dropLast]
  have hge : getAtNode (Node.elem "p" attrs
      [Node.text sym, Node.elem "span" aEnd [Node.text sEnd], Node.text txt]) [1] =
      some (Node.elem "span" aEnd [Node.text sEnd]) := rfl
  have hsos : spanOnlySpaces (Node.elem "span" aEnd [Node.text sEnd]) = true := by
    simp [spanOnlySpaces, hEndSt, hEnd]
  have hrm : setAtNode (Node.elem "p" attrs
      [Node.text sym, Node.elem "span" aEnd [Node.text sEnd], Node.text txt]) [1, 0]
      (scriptWrap sixNbspEntities) =
      Node.elem "p" attrs
        [Node.text sym, Node.elem "span" aEnd [scriptWrap sixNbspEntities], Node.text txt] := rfl
  simp +decide [List.dropLast, hge, hsos, hstyle, hsearch, hsubn, hrm]

/-- C2 counterexample: a candidate paragraph passing every structural
precondition of the ordered-list repair, whose style holds two text-indent
declarations separated by a double semicolon, is not repaired as described:
the text-indent substitution matches twice, so the examination ends in the
fatal error outcome and the whole repair engine returns the error
indicator. -/
theorem claim_C2_counterexample :
    fixOrderedPara (Node.elem "p"
      [("class", AttrVal.multi ["MsoNormal"]),
       ("style", AttrVal.str "text-indent:1in;;text-indent:2in")]
      [Node.elem "span" [("style", AttrVal.str "font:7.0pt")]
        [Node.text (String.mk [Char.ofNat 160])],
       Node.text "1.",
       Node.elem "span" [("style", AttrVal.str "font:7.0pt")]
        [Node.text (String.mk [Char.ofNat 160])],
       Node.text "Item text"]) = OrdOutcome.err ∧
    repairListBugs [Node.elem "p"
      [("class", AttrVal.multi ["MsoNormal"]),
       ("style", AttrVal.str "text-indent:1in;;text-indent:2in")]
      [Node.elem "span" [("style", AttrVal.str "font:7.0pt")]
        [Node.text (String.mk [Char.ofNat 160])],
       Node.text "1.",
       Node.elem "span" [("style", AttrVal.str "font:7.0pt")]
        [Node.text (String.mk [Char.ofNat 160])],
       Node.text "Item text"]] = none := by
  refine ⟨by decide, by decide⟩

/-- C2 as amended: on a candidate list-item paragraph in canonical form
whose style tokens are clean and hold exactly one full text-indent
declaration, the ordered-list repair replaces the post-symbol spaces-only
span content with the script-wrapped six-non-breaking-space form, removes
the pre-symbol spaces-only span entirely when one exists, and rewrites the
style so that the text-indent declaration becomes text-indent:-.25in while
every other token is unchanged and in its original position; the original
claim without the uniqueness condition on the declaration is refuted by
claim_C2_counterexample. -/
theorem claim_C2 (aPre aEnd attrs : List (String × AttrVal))
    (sPre sym sEnd txt : String) (ts1 ts2 : List String) (t : String) (sd ls : List Char)
    (hPreSt : hasAttr aPre "style" = true) (hPre : nbspOnlyText sPre = true)
    (hEndSt : hasAttr aEnd "style" = true) (hEnd : nbspOnlyText sEnd = true)
    (hSym : symbolMatch sym = true)
    (hstyle : getAttr attrs "style" = some (AttrVal.str (joinStyle (ts1 ++ t :: ts2))))
    (h1 : ∀ u ∈ ts1, cleanCh u.data = true ∧ tiDeclCh u.data = false)
    (hct : cleanCh t.data = true) (hparts : tiDeclParts t.data = some (sd, ls))
    (h2 : ∀ u ∈ ts2, cleanCh u.data = true ∧ tiDeclCh u.data = false) :
    fixOrderedPara (Node.elem "p" attrs
      [Node.elem "span" aPre [Node.text sPre], Node.text sym,
       Node.elem "span" aEnd [Node.text sEnd], Node.text txt]) =
    OrdOutcome.fixed (Node.elem "p"
        (setAttr attrs "style" (AttrVal.str (joinStyle (ts1 ++ "text-indent:-.25in" :: ts2))))
        [Node.text sym, Node.elem "span" aEnd [scriptWrap sixNbspEntities], Node.text txt])
      (if String.mk ls ≠ "in" then some (String.mk (tiLit ++ sd) ++ String.mk ls)
       else none) ∧
    fixOrderedPara (Node.elem "p" attrs
      [Node.text sym, Node.elem "span" aEnd [Node.text sEnd], Node.text txt]) =
    OrdOutcome.fixed (Node.elem "p"
        (setAttr attrs "style" (AttrVal.str (joinStyle (ts1 ++ "text-indent:-.25in" :: ts2))))
        [Node.text sym, Node.elem "span" aEnd [scriptWrap sixNbspEntities], Node.text txt])
      (if String.mk ls ≠ "in" then some (String.mk (tiLit ++ sd) ++ String.mk ls)
       else none) :=
  ⟨fixOrderedPara_canonical aPre aEnd attrs sPre sym sEnd txt ts1 ts2 t sd ls
    hPreSt hPre hEndSt hEnd hSym hstyle h1 hct hparts h2,
   fixOrderedPara_canonicalNoPre aEnd attrs sym sEnd txt ts1 ts2 t sd ls
    hEndSt hEnd hSym hstyle h1 hct hparts h2⟩

/-- Witness for C2 at a concrete candidate paragraph with the style
margin-left:1.25in;text-indent:1.5in. -/
theorem claim_C2_witness :
    fixOrderedPara (Node.elem "p"
      [("class", AttrVal.multi ["MsoNormal"]),
       ("style", AttrVal.str (joinStyle (["margin-left:1.25in"] ++ "text-indent:1.5in" :: [])))]
      [Node.elem "span" [("style", AttrVal.str "font:7.0pt")]
        [Node.text (String.mk [Char.ofNat 160])],
       Node.text "1.",
       Node.elem "span" [("style", AttrVal.str "font:7.0pt")]
        [Node.text (String.mk [Char.ofNat 160])],
       Node.text "Item text"]) =
    OrdOutcome.fixed (Node.elem "p"
        (setAttr [("class", AttrVal.multi ["MsoNormal"]),
          ("style", AttrVal.str (joinStyle (["margin-left:1.25in"] ++ "text-indent:1.5in" :: [])))]
          "style" (AttrVal.str (joinStyle (["margin-left:1.25in"] ++ "text-indent:-.25in" :: []))))
        [Node.text "1.", Node.elem "span" [("style", AttrVal.str "font:7.0pt")]
          [scriptWrap sixNbspEntities], Node.text "Item text"])
      (if String.mk "in".data ≠ "in"
       then some (String.mk (tiLit ++ "1.5".data) ++ String.mk "in".data) else none) :=
  (claim_C2 [("style", AttrVal.str "font:7.0pt")] [("style", AttrVal.str "font:7.0pt")]
    [("class", AttrVal.multi ["MsoNormal"]),
     ("style", AttrVal.str (joinStyle (["margin-left:1.25in"] ++ "text-indent:1.5in" :: [])))]
    (String.mk [Char.ofNat 160]) "1." (String.mk [Char.ofNat 160]) "Item text"
    ["margin-left:1.25in"] [] "text-indent:1.5in" "1.5".data "in".data
    (by decide) (by decide) (by decide) (by decide) (by decide) (by decide)
    (by decide) (by decide) (by decide) (by decide)).1

/-- C8 counterexample: an ordered-list candidate passing all structural
tests whose anomalous-unit text-indent declaration (unit cm) is followed,
after a double semicolon, by a second text-indent declaration is NOT fixed
non-fatally: the rewrite substitution matches twice and the engine returns
the fatal error indicator. -/
theorem claim_C8_counterexample :
    fixOrderedPara (Node.elem "p"
      [("class", AttrVal.multi ["MsoListParagraph"]),
       ("style", AttrVal.str "text-indent:1.5cm;;text-indent:2in")]
      [Node.elem "span" [("style", AttrVal.str "font:7.0pt")]
        [Node.text (String.mk [Char.ofNat 160])],
       Node.text "i.",
       Node.elem "span" [("style", AttrVal.str "font:7.0pt")]
        [Node.text (String.mk [Char.ofNat 160])],
       Node.text "Entry"]) = OrdOutcome.err ∧
    repairListBugs [Node.elem "p"
      [("class", AttrVal.multi ["MsoListParagraph"]),
       ("style", AttrVal.str "text-indent:1.5cm;;text-indent:2in")]
      [Node.elem "span" [("style", AttrVal.str "font:7.0pt")]
        [Node.text (String.mk [Char.ofNat 160])],
       Node.text "i.",
       Node.elem "span" [("style", AttrVal.str "font:7.0pt")]
        [Node.text (String.mk [Char.ofNat 160])],
       Node.text "Entry"]] = none := by
  refine ⟨by decide, by decide⟩

/-- C8 as amended: on a canonical candidate paragraph whose clean style
tokens hold exactly one full text-indent declaration and whose unit is not
the literal in, the paragraph is still fixed with the anomalous declaration
recorded, the ordered-list step increments the unrecognized-unit counter and
appends the declaration to the aggregation list while continuing
(non-fatally), and the aggregated list is deduplicated while keeping every
recorded declaration; the original claim without the uniqueness condition on
the text-indent declaration is refuted by claim_C8_counterexample. -/
theorem claim_C8 (aPre aEnd attrs : List (String × AttrVal))
    (sPre sym sEnd txt : String) (ts1 ts2 : List String) (t : String) (sd ls : List Char)
    (hPreSt : hasAttr aPre "style" = true) (hPre : nbspOnlyText sPre = true)
    (hEndSt : hasAttr aEnd "style" = true) (hEnd : nbspOnlyText sEnd = true)
    (hSym : symbolMatch sym = true)
    (hstyle : getAttr attrs "style" = some (AttrVal.str (joinStyle (ts1 ++ t :: ts2))))
    (h1 : ∀ u ∈ ts1, cleanCh u.data = true ∧ tiDeclCh u.data = false)
    (hct : cleanCh t.data = true) (hparts : tiDeclParts t.data = some (sd, ls))
    (h2 : ∀ u ∈ ts2, cleanCh u.data = true ∧ tiDeclCh u.data = false)
    (hanom : String.mk ls ≠ "in") :
    fixOrderedPara (Node.elem "p" attrs
      [Node.elem "span" aPre [Node.text sPre], Node.text sym,
       Node.elem "span" aEnd [Node.text sEnd], Node.text txt]) =
    OrdOutcome.fixed (Node.elem "p"
        (setAttr attrs "style" (AttrVal.str (joinStyle (ts1 ++ "text-indent:-.25in" :: ts2))))
        [Node.text sym, Node.elem "span" aEnd [scriptWrap sixNbspEntities], Node.text txt])
      (some (String.mk (tiLit ++ sd) ++ String.mk ls)) ∧
    (∀ (frag : List Node) (cnt : Nat) (units : List String) (pp : Path),
      getFrag frag pp = some (Node.elem "p" attrs
        [Node.elem "span" aPre [Node.text sPre], Node.text sym,
         Node.elem "span" aEnd [Node.text sEnd], Node.text txt]) →
      orderedStep (some (frag, cnt, units)) pp =
        some (setFrag frag pp (Node.elem "p"
            (setAttr attrs "style" (AttrVal.str (joinStyle (ts1 ++ "text-indent:-.25in" :: ts2))))
            [Node.text sym, Node.elem "span" aEnd [scriptWrap sixNbspEntities], Node.text txt]),
          cnt + 1, units ++ [String.mk (tiLit ++ sd) ++ String.mk ls])) ∧
    (∀ us : List String, String.mk (tiLit ++ sd) ++ String.mk ls ∈ us →
      String.mk (tiLit ++ sd) ++ String.mk ls ∈ dedupUnits us ∧ (dedupUnits us).Nodup) := by
  have hfix := fixOrderedPara_canonical aPre aEnd attrs sPre sym sEnd txt ts1 ts2 t sd ls
    hPreSt hPre hEndSt hEnd hSym hstyle h1 hct hparts h2
  rw [if_pos hanom] at hfix
  refine ⟨hfix, ?_, ?_⟩
  · intro frag cnt units pp hg
    simp [orderedStep, hg, hfix]
  · intro us hin
    unfold dedupUnits
    exact ⟨List.mem_dedup.mpr hin, List.nodup_dedup us⟩

/-- Witness for C8 at a concrete candidate paragraph styled
margin-left:1in;text-indent:1.5cm. -/
theorem claim_C8_witness :
    fixOrderedPara (Node.elem "p"
      [("class", AttrVal.multi ["MsoListParagraph"]),
       ("style", AttrVal.str (joinStyle (["margin-left:1in"] ++ "text-indent:1.5cm" :: [])))]
      [Node.elem "span" [("style", AttrVal.str "font:7.0pt")]
        [Node.text (String.mk [Char.ofNat 160])],
       Node.text "i.",
       Node.elem "span" [("style", AttrVal.str "font:7.0pt")]
        [Node.text (String.mk [Char.ofNat 160])],
       Node.text "Entry"]) =
    OrdOutcome.fixed (Node.elem "p"
        (setAttr [("class", AttrVal.multi ["MsoListParagraph"]),
          ("style", AttrVal.str (joinStyle (["margin-left:1in"] ++ "text-indent:1.5cm" :: [])))]
          "style" (AttrVal.str (joinStyle (["margin-left:1in"] ++ "text-indent:-.25in" :: []))))
        [Node.text "i.", Node.elem "span" [("style", AttrVal.str "font:7.0pt")]
          [scriptWrap sixNbspEntities], Node.text "Entry"])
      (some (String.mk (tiLit ++ "1.5".data) ++ String.mk "cm".data)) ∧
    (String.mk (tiLit ++ "1.5".data) ++ String.mk "cm".data ∈
        dedupUnits [String.mk (tiLit ++ "1.5".data) ++ String.mk "cm".data] ∧
      (dedupUnits [String.mk (tiLit ++ "1.5".data) ++ String.mk "cm".data]).Nodup) := by
  have h := claim_C8 [("style", AttrVal.str "font:7.0pt")] [("style", AttrVal.str "font:7.0pt")]
    [("class", AttrVal.multi ["MsoListParagraph"]),
     ("style", AttrVal.str (joinStyle (["margin-left:1in"] ++ "text-indent:1.5cm" :: [])))]
    (String.mk [Char.ofNat 160]) "i." (String.mk [Char.ofNat 160]) "Entry"
    ["margin-left:1in"] [] "text-indent:1.5cm" "1.5".data "cm".data
    (by decide) (by decide) (by decide) (by decide) (by decide) (by decide)
    (by decide) (by decide) (by decide) (by decide) (by decide)
  exact ⟨h.1, h.2.2 [String.mk (tiLit ++ "1.5".data) ++ String.mk "cm".data] (by simp)⟩

/-- C3: a candidate paragraph whose first text node is the Word solid-dot
bullet character inside a span declaring font-family Symbol, with a
spaces-only span child of that span, is repaired by the solid-dot pass: the
bullet text becomes the script-wrapped solid-dot entity, the spaces-only
text becomes the script-wrapped six-non-breaking-space replacement, and the
paragraph is consumed from the candidate pool by the pass step, so the
later passes, which run on the remaining pool, never reconsider it (a pool
emptied of it leaves their fragment unchanged). -/
theorem claim_C3 (aSym aEnd attrs : List (String × AttrVal)) (st1 sEnd txt : String)
    (hst : getAttr aSym "style" = some (AttrVal.str st1))
    (hff : tokenBoundarySearch "font-family:Symbol" st1 = true)
    (hEndSt : hasAttr aEnd "style" = true) (hEnd : nbspOnlyText sEnd = true) :
    fixUnorderedPara "Symbol" solidDotSymbol (some (scriptWrap dotEntity))
      (Node.elem "p" attrs
        [Node.elem "span" aSym
          [Node.text solidDotSymbol, Node.elem "span" aEnd [Node.text sEnd]],
         Node.text txt]) =
      some (Node.elem "p" attrs
        [Node.elem "span" aSym
          [scriptWrap dotEntity, Node.elem "span" aEnd [scriptWrap sixNbspEntities]],
         Node.text txt]) ∧
    (∀ (frag : List Node) (kept : List Path) (pp : Path),
      getFrag frag pp = some (Node.elem "p" attrs
        [Node.elem "span" aSym
          [Node.text solidDotSymbol, Node.elem "span" aEnd [Node.text sEnd]],
         Node.text txt]) →
      unorderedStep "Symbol" solidDotSymbol (some (scriptWrap dotEntity)) (frag, kept) pp =
        (setFrag frag pp (Node.elem "p" attrs
          [Node.elem "span" aSym
            [scriptWrap dotEntity, Node.elem "span" aEnd [scriptWrap sixNbspEntities]],
           Node.text txt]), kept)) ∧
    (∀ (ff sym2 : String) (bf : Option Node) (f : List Node),
      unorderedPass ff sym2 bf f [] = (f, [])) ∧
    (∀ f : List Node, orderedPass f [] = some (f, 0, [])) := by
  have hfix : fixUnorderedPara "Symbol" solidDotSymbol (some (scriptWrap dotEntity))
      (Node.elem "p" attrs
        [Node.elem "span" aSym
          [Node.text solidDotSymbol, Node.elem "span" aEnd [Node.text sEnd]],
         Node.text txt]) =
      some (Node.elem "p" attrs
        [Node.elem "span" aSym
          [scriptWrap dotEntity, Node.elem "span" aEnd [scriptWrap sixNbspEntities]],
         Node.text txt]) := by
    have htn : textNodesNode (Node.elem "p" attrs
        [Node.elem "span" aSym
          [Node.text solidDotSymbol, Node.elem "span" aEnd [Node.text sEnd]],
         Node.text txt]) =
        [([0, 0], solidDotSymbol), ([0, 1, 0], sEnd), ([1], txt)] := rfl
    have hg1 : getAtNode (Node.elem "p" attrs
        [Node.elem "span" aSym
          [Node.text solidDotSymbol, Node.elem "span" aEnd [Node.text sEnd]],
         Node.text txt]) [0] =
        some (Node.elem "span" aSym
          [Node.text solidDotSymbol, Node.elem "span" aEnd [Node.text sEnd]]) := rfl
    have hg2 : getAtNode (Node.elem "p" attrs
        [Node.elem "span" aSym
          [Node.text solidDotSymbol, Node.elem "span" aEnd [Node.text sEnd]],
         Node.text txt]) [0, 1] =
        some (Node.elem "span" aEnd [Node.text sEnd]) := rfl
    have hsos : spanOnlySpaces (Node.elem "span" aEnd [Node.text sEnd]) = true := by
      simp [spanOnlySpaces, hEndSt, hEnd]
    have hset : setAtNode (setAtNode (Node.elem "p" attrs
        [Node.elem "span" aSym
          [Node.text solidDotSymbol, Node.elem "span" aEnd [Node.text sEnd]],
         Node.text txt]) [0, 0] (scriptWrap dotEntity)) [0, 1, 0]
        (scriptWrap sixNbspEntities) =
        Node.elem "p" attrs
          [Node.elem "span" aSym
            [scriptWrap dotEntity, Node.elem "span" aEnd [scriptWrap sixNbspEntities]],
           Node.text txt] := rfl
    unfold fixUnorderedPara
    rw [htn]
    simp +decide [List.dropLast, hg1, hg2, hst, hsos, hset,
      show ("font-family:" ++ "Symbol" : String) = "font-family:Symbol" from rfl, hff]
  refine ⟨hfix, ?_, ?_, ?_⟩
  · intro frag kept pp hg
    simp [unorderedStep, hg, hfix]
  · intro ff sym2 bf f
    rfl
  · intro f
    rfl

/-- Witness for C3 at a concrete solid-dot candidate paragraph. -/
theorem claim_C3_witness :
    fixUnorderedPara "Symbol" solidDotSymbol (some (scriptWrap dotEntity))
      (Node.elem "p" [("class", AttrVal.multi ["MsoNormal"])]
        [Node.elem "span" [("style", AttrVal.str "font-family:Symbol")]
          [Node.text solidDotSymbol,
           Node.elem "span" [("style", AttrVal.str "font:7.0pt")]
             [Node.text (String.mk [Char.ofNat 160])]],
         Node.text "Bullet text"]) =
      some (Node.elem "p" [("class", AttrVal.multi ["MsoNormal"])]
        [Node.elem "span" [("style", AttrVal.str "font-family:Symbol")]
          [scriptWrap dotEntity,
           Node.elem "span" [("style", AttrVal.str "font:7.0pt")]
             [scriptWrap sixNbspEntities]],
         Node.text "Bullet text"]) ∧
    (∀ f : List Node, orderedPass f [] = some (f, 0, [])) := by
  have h := claim_C3 [("style", AttrVal.str "font-family:Symbol")]
    [("style", AttrVal.str "font:7.0pt")] [("class", AttrVal.multi ["MsoNormal"])]
    "font-family:Symbol" (String.mk [Char.ofNat 160]) "Bullet text"
    (by decide) (by decide) (by decide) (by decide)
  exact ⟨h.1, h.2.2.2⟩

theorem whiteFold_none (policy : WhitePolicy) (es : List (Path × Bool)) :
    es.foldl (whiteStep policy) none = none := by
  induction es with
  | nil => rfl
  | cons e tl ih =>
    simp only [List.foldl_cons]
    simpa [whiteStep] using ih

theorem whiteStep_some_counts (policy : WhitePolicy) (g : List Node) (x y : Nat)
    (e : Path × Bool) (g2 : List Node) (x2 y2 : Nat)
    (h : whiteStep policy (some (g, x, y)) e = some (g2, x2, y2)) :
    x2 = x + (if e.2 then 1 else 0) ∧ y2 = y + (if e.2 then 0 else 1) := by
  unfold whiteStep at h
  simp only at h
  repeat' split at h
  all_goals
    first
      | exact Option.noConfusion h
      | (simp only [Option.some.injEq, Prod.mk.injEq] at h
         obtain ⟨h1, h2, h3⟩ := h
         subst h2
         subst h3
         cases hb : e.2 <;> simp_all)

theorem whiteFold_counts : ∀ (es : List (Path × Bool)) (policy : WhitePolicy)
    (g : List Node) (x y : Nat) (f : List Node) (a b : Nat),
    es.foldl (whiteStep policy) (some (g, x, y)) = some (f, a, b) →
    a = x + (es.filter (fun e => e.2)).length ∧
    b = y + (es.filter (fun e => !e.2)).length := by
  intro es
  induction es with
  | nil =>
    intro policy g x y f a b h
    simp only [List.foldl_nil, Option.some.injEq, Prod.mk.injEq] at h
    obtain ⟨h1, h2, h3⟩ := h
    simp [h2, h3]
  | cons e tl ih =>
    intro policy g x y f a b h
    simp only [List.foldl_cons] at h
    rcases hstep : whiteStep policy (some (g, x, y)) e with _ | ⟨g2, x2, y2⟩
    · rw [hstep, whiteFold_none] at h
      exact Option.noConfusion h
    · rw [hstep] at h
      have hc := whiteStep_some_counts policy g x y e g2 x2 y2 hstep
      have hi := ih policy g2 x2 y2 f a b h
      cases hb : e.2 <;>
        simp only [hb, if_true, if_false, List.filter_cons, Bool.not_true, Bool.not_false,
          List.length_cons, hc.1, hc.2, hi.1, hi.2] <;>
        simp <;> omega

/-- C5: under the strip-in-paragraphs policy, processing a white-colored
span with no paragraph ancestor leaves the fragment entirely untouched and
only counts the span; processing one with a paragraph ancestor removes the
color:white token from its style (the whole style attribute when the value
is exactly color:white, otherwise the token with its adjacent separators by
the single-match substitution); and for every input and every policy the
two returned counters are the numbers of white-colored spans under and not
under a paragraph. -/
theorem claim_C5 :
    (∀ (g : List Node) (x y : Nat) (pp : Path),
      whiteStep WhitePolicy.removeInParagraphs (some (g, x, y)) (pp, false) =
        some (g, x, y + 1)) ∧
    (∀ (g : List Node) (x y : Nat) (pp : Path) (tg : String)
        (a : List (String × AttrVal)) (cs : List Node),
      getFrag g pp = some (Node.elem tg a cs) →
      getAttr a "style" = some (AttrVal.str "color:white") →
      whiteStep WhitePolicy.removeInParagraphs (some (g, x, y)) (pp, true) =
        some (setFrag g pp (Node.elem tg (removeAttr a "style") cs), x + 1, y)) ∧
    (∀ (g : List Node) (x y : Nat) (pp : Path) (tg : String)
        (a : List (String × AttrVal)) (cs : List Node) (ts1 ts2 : List String),
      (∀ u ∈ ts1, cleanCh u.data = true ∧ u ≠ "color:white") →
      (∀ u ∈ ts2, cleanCh u.data = true ∧ u ≠ "color:white") →
      joinStyle (ts1 ++ "color:white" :: ts2) ≠ "color:white" →
      getFrag g pp = some (Node.elem tg a cs) →
      getAttr a "style" = some (AttrVal.str (joinStyle (ts1 ++ "color:white" :: ts2))) →
      whiteStep WhitePolicy.removeInParagraphs (some (g, x, y)) (pp, true) =
        some (setFrag g pp (Node.elem tg (setAttr a "style"
          (AttrVal.str (joinStyle ts1 ++ joinStyle ts2))) cs), x + 1, y)) ∧
    (∀ (policy : WhitePolicy) (frag f : List Node) (a b : Nat),
      whiteTextPass policy frag = some (f, a, b) →
      a = ((whiteSpansFrag frag).filter (fun e => e.2)).length ∧
      b = ((whiteSpansFrag frag).filter (fun e => !e.2)).length) := by
  refine ⟨?_, ?_, ?_, ?_⟩
  · intro g x y pp
    rfl
  · intro g x y pp tg a cs hg ha
    simp [whiteStep, whiteStrip, hg, ha]
  · intro g x y pp tg a cs ts1 ts2 h1 h2 hne hg ha
    have hsub := cwSubn_single ts1 ts2 h1 h2
    simp [whiteStep, whiteStrip, hg, ha, hne, hsub]
  · intro policy frag f a b h
    have := whiteFold_counts (whiteSpansFrag frag) policy frag 0 0 f a b h
    simpa using this

/-- Witness for C5 at concrete spans and a concrete pass run. -/
theorem claim_C5_witness :
    whiteStep WhitePolicy.removeInParagraphs
      (some ([Node.elem "span" [("style", AttrVal.str "color:white")] [Node.text "x"]], 0, 0))
      ([0], false) =
      some ([Node.elem "span" [("style", AttrVal.str "color:white")] [Node.text "x"]], 0, 1) ∧
    whiteStep WhitePolicy.removeInParagraphs
      (some ([Node.elem "p" []
        [Node.elem "span" [("style", AttrVal.str "color:white")] [Node.text "x"]]], 0, 0))
      ([0, 0], true) =
      some (setFrag [Node.elem "p" []
        [Node.elem "span" [("style", AttrVal.str "color:white")] [Node.text "x"]]] [0, 0]
        (Node.elem "span" (removeAttr [("style", AttrVal.str "color:white")] "style")
          [Node.text "x"]), 1, 0) ∧
    whiteStep WhitePolicy.removeInParagraphs
      (some ([Node.elem "p" []
        [Node.elem "span" [("style", AttrVal.str "color:red;color:white")] [Node.text "x"]]],
        0, 0)) ([0, 0], true) =
      some (setFrag [Node.elem "p" []
        [Node.elem "span" [("style", AttrVal.str "color:red;color:white")] [Node.text "x"]]]
        [0, 0]
        (Node.elem "span" (setAttr [("style", AttrVal.str "color:red;color:white")] "style"
          (AttrVal.str (joinStyle ["color:red"] ++ joinStyle []))) [Node.text "x"]), 1, 0) ∧
    (0 = (((whiteSpansFrag [Node.elem "span" [("style", AttrVal.str "color:white")]
        [Node.text "x"]]).filter (fun e => e.2)).length) ∧
     1 = (((whiteSpansFrag [Node.elem "span" [("style", AttrVal.str "color:white")]
        [Node.text "x"]]).filter (fun e => !e.2)).length)) := by
  refine ⟨claim_C5.1 _ 0 0 [0], ?_, ?_, ?_⟩
  · exact claim_C5.2.1 _ 0 0 [0, 0] "span" [("style", AttrVal.str "color:white")]
      [Node.text "x"] (by decide) (by decide)
  · exact claim_C5.2.2.1 _ 0 0 [0, 0] "span" [("style", AttrVal.str "color:red;color:white")]
      [Node.text "x"] ["color:red"] [] (by decide) (by decide) (by decide) (by decide)
      (by decide)
  · exact claim_C5.2.2.2 WhitePolicy.removeInParagraphs
      [Node.elem "span" [("style", AttrVal.str "color:white")] [Node.text "x"]]
      [Node.elem "span" [("style", AttrVal.str "color:white")] [Node.text "x"]]
      0 1 (by decide)

theorem modifyKid_get : ∀ (f : Node → Node) (ns : List Node) (i k : Nat),
    (modifyKid f ns i)[k]? = if k = i then (ns[i]?).map f else ns[k]? := by
  intro f ns
  induction ns with
  | nil =>
    intro i k
    simp [modifyKid]
  | cons n tl ih =>
    intro i k
    cases i with
    | zero =>
      cases k with
      | zero => simp [modifyKid]
      | succ k2 => simp [modifyKid]
    | succ i2 =>
      cases k with
      | zero => simp [modifyKid]
      | succ k2 =>
        simp only [modifyKid, List.getElem?_cons_succ, ih i2 k2]
        by_cases hk : k2 = i2
        · simp [hk]
        · simp [hk, fun h => hk (Nat.succ_injective h)]

theorem getFrag_cons_of_get {cs : List Node} {j : Nat} {n : Node}
    (h : cs[j]? = some n) (q : Path) : getFrag cs (j :: q) = getAtNode n q := by
  cases q with
  | nil => simp [getFrag, getAtNode, h]
  | cons r rs =>
    cases n with
    | text s => simp [getFrag, getAtNode, h]
    | elem t a kids => simp [getFrag, getAtNode, h]

theorem getFrag_setFrag : ∀ (pp q : Path) (f : List Node) (x : Node),
    pathPre pp q = false → pathPre q pp = false →
    getFrag (setFrag f pp x) q = getFrag f q := by
  intro pp
  induction pp with
  | nil => intro q f x h1 _; simp [pathPre] at h1
  | cons i pr ih =>
    intro q f x h1 h2
    cases q with
    | nil => cases pr <;> simp [getFrag]
    | cons k qr =>
      cases pr with
      | nil =>
        have hik : ¬ (i = k) := by
          intro he
          subst he
          simp [pathPre] at h1
        simp only [setFrag, getFrag, modifyKid_get]
        rw [if_neg (fun h => hik h.symm)]
      | cons j ps =>
        by_cases hik : k = i
        · subst hik
          have hpq : pathPre (j :: ps) qr = false := by
            cases hx : pathPre (j :: ps) qr with
            | false => rfl
            | true =>
              rw [show pathPre (k :: j :: ps) (k :: qr) =
                (decide (k = k) && pathPre (j :: ps) qr) from rfl, hx] at h1
              simp at h1
          have hqp : pathPre qr (j :: ps) = false := by
            cases hx : pathPre qr (j :: ps) with
            | false => rfl
            | true =>
              rw [show pathPre (k :: qr) (k :: j :: ps) =
                (decide (k = k) && pathPre qr (j :: ps)) from rfl, hx] at h2
              simp at h2
          simp only [setFrag, getFrag, modifyKid_get, if_pos rfl]
          rcases hg : f[k]? with _ | n
          · simp
          · cases n with
            | text s =>
              cases qr with
              | nil => simp
              | cons r rs => simp
            | elem t a cs =>
              cases qr with
              | nil => simp [pathPre] at hqp
              | cons r rs =>
                simp only [Option.map_some]
                exact ih (r :: rs) cs x hpq hqp
        · simp only [setFrag, getFrag, modifyKid_get]
          rw [if_neg hik]

theorem findElemsKids_shape (pred : Node → Bool) :
    ∀ (ns : List Node) (i : Nat) (pp : Path), pp ∈ findElemsKids pred i ns →
    ∃ j q n, pp = (i + j) :: q ∧ ns[j]? = some n ∧ q ∈ findElemsNode pred n := by
  intro ns
  induction ns with
  | nil => intro i pp h; simp [findElemsKids] at h
  | cons n tl ih =>
    intro i pp h
    simp only [findElemsKids, List.mem_append, List.mem_map] at h
    rcases h with ⟨q, hq, he⟩ | h
    · exact ⟨0, q, n, by simp [he.symm], by simp, hq⟩
    · obtain ⟨j2, q, n2, he, hg, hm⟩ := ih (i + 1) pp h
      refine ⟨j2 + 1, q, n2, ?_, by simpa using hg, hm⟩
      rw [he]
      congr 1
      omega

theorem findElemsNode_sound (pred : Node → Bool) :
    ∀ (q : Path) (n : Node), q ∈ findElemsNode pred n →
    ∃ m, getAtNode n q = some m ∧ pred m = true := by
  intro q
  induction q with
  | nil =>
    intro n h
    cases n with
    | text s => simp [findElemsNode] at h
    | elem t a cs =>
      refine ⟨Node.elem t a cs, rfl, ?_⟩
      simp only [findElemsNode, List.mem_append] at h
      rcases h with h | h
      · split at h
        · assumption
        · simp at h
      · obtain ⟨j, q2, n2, he, _, _⟩ := findElemsKids_shape pred cs 0 [] h
        cases he
  | cons k qr ih =>
    intro n h
    cases n with
    | text s => simp [findElemsNode] at h
    | elem t a cs =>
      simp only [findElemsNode, List.mem_append] at h
      rcases h with h | h
      · split at h <;> simp at h
      · obtain ⟨j, q2, n2, he, hg, hm⟩ := findElemsKids_shape pred cs 0 (k :: qr) h
        simp only [Nat.zero_add] at he
        injection he with he1 he2
        subst he1
        subst he2
        obtain ⟨m, hgm, hpm⟩ := ih n2 hm
        refine ⟨m, ?_, hpm⟩
        show getFrag cs (k :: qr) = some m
        rw [getFrag_cons_of_get hg qr, hgm]

theorem findElemsFrag_sound (pred : Node → Bool) (ns : List Node) (pp : Path)
    (h : pp ∈ findElemsFrag pred ns) :
    ∃ m, getFrag ns pp = some m ∧ pred m = true := by
  obtain ⟨j, q, n, he, hg, hm⟩ := findElemsKids_shape pred ns 0 pp h
  simp only [Nat.zero_add] at he
  subst he
  obtain ⟨m, hgm, hpm⟩ := findElemsNode_sound pred q n hm
  refine ⟨m, ?_, hpm⟩
  rw [getFrag_cons_of_get hg q, hgm]

theorem unorderedPass_frame (ff sym : String) (bf : Option Node) (q : Path) :
    ∀ (pool : List Path) (f : List Node) (kept : List Path),
    (∀ pp ∈ pool, pathPre pp q = false ∧ pathPre q pp = false) →
    getFrag (pool.foldl (unorderedStep ff sym bf) (f, kept)).1 q = getFrag f q ∧
    (∀ x ∈ (pool.foldl (unorderedStep ff sym bf) (f, kept)).2, x ∈ kept ∨ x ∈ pool) := by
  intro pool
  induction pool with
  | nil =>
    intro f kept _
    exact ⟨rfl, fun x hx => Or.inl hx⟩
  | cons pp tl ih =>
    intro f kept hd
    simp only [List.foldl_cons]
    have hpp := hd pp (by simp)
    have hdt : ∀ r ∈ tl, pathPre r q = false ∧ pathPre q r = false :=
      fun r hr => hd r (List.mem_cons_of_mem _ hr)
    rcases hstep : unorderedStep ff sym bf (f, kept) pp with ⟨f2, kept2⟩
    have hcases : (f2 = setFrag f pp (Classical.choice ⟨Node.text ""⟩) ∨ True) := Or.inr trivial
    clear hcases
    unfold unorderedStep at hstep
    rcases hg : getFrag f pp with _ | p
    · rw [hg] at hstep
      simp only [Prod.mk.injEq] at hstep
      obtain ⟨hf2, hk2⟩ := hstep
      subst hf2
      subst hk2
      have := ih f (kept ++ [pp]) hdt
      refine ⟨this.1, fun x hx => ?_⟩
      rcases this.2 x hx with hx2 | hx2
      · rcases List.mem_append.mp hx2 with hx3 | hx3
        · exact Or.inl hx3
        · simp only [List.mem_singleton] at hx3
          exact Or.inr (by simp [hx3])
      · exact Or.inr (List.mem_cons_of_mem _ hx2)
    · rw [hg] at hstep
      simp only at hstep
      rcases hfix : fixUnorderedPara ff sym bf p with _ | p2
      · rw [hfix] at hstep
        simp only [Prod.mk.injEq] at hstep
        obtain ⟨hf2, hk2⟩ := hstep
        subst hf2
        subst hk2
        have := ih f (kept ++ [pp]) hdt
        refine ⟨this.1, fun x hx => ?_⟩
        rcases this.2 x hx with hx2 | hx2
        · rcases List.mem_append.mp hx2 with hx3 | hx3
          · exact Or.inl hx3
          · simp only [List.mem_singleton] at hx3
            exact Or.inr (by simp [hx3])
        · exact Or.inr (List.mem_cons_of_mem _ hx2)
      · rw [hfix] at hstep
        simp only [Prod.mk.injEq] at hstep
        obtain ⟨hf2, hk2⟩ := hstep
        subst hf2
        subst hk2
        have := ih (setFrag f pp p2) kept hdt
        refine ⟨?_, fun x hx => ?_⟩
        · rw [this.1, getFrag_setFrag pp q f p2 hpp.1 hpp.2]
        · rcases this.2 x hx with hx2 | hx2
          · exact Or.inl hx2
          · exact Or.inr (List.mem_cons_of_mem _ hx2)

theorem orderedFold_none : ∀ (pool : List Path),
    pool.foldl orderedStep none = none := by
  intro pool
  induction pool with
  | nil => rfl
  | cons pp tl ih =>
    simp only [List.foldl_cons]
    simpa [orderedStep] using ih

theorem orderedPass_frame (q : Path) :
    ∀ (pool : List Path) (f : List Node) (c : Nat) (u : List String)
      (f2 : List Node) (c2 : Nat) (u2 : List String),
    (∀ pp ∈ pool, pathPre pp q = false ∧ pathPre q pp = false) →
    pool.foldl orderedStep (some (f, c, u)) = some (f2, c2, u2) →
    getFrag f2 q = getFrag f q := by
  intro pool
  induction pool with
  | nil =>
    intro f c u f2 c2 u2 _ h
    simp only [List.foldl_nil, Option.some.injEq, Prod.mk.injEq] at h
    rw [h.1]
  | cons pp tl ih =>
    intro f c u f2 c2 u2 hd h
    simp only [List.foldl_cons] at h
    have hpp := hd pp (by simp)
    have hdt : ∀ r ∈ tl, pathPre r q = false ∧ pathPre q r = false :=
      fun r hr => hd r (List.mem_cons_of_mem _ hr)
    rcases hstep : orderedStep (some (f, c, u)) pp with _ | ⟨f3, c3, u3⟩
    · rw [hstep, orderedFold_none] at h
      exact Option.noConfusion h
    · rw [hstep] at h
      have hrest := ih f3 c3 u3 f2 c2 u2 hdt h
      unfold orderedStep at hstep
      simp only at hstep
      rcases hg : getFrag f pp with _ | p
      · rw [hg] at hstep
        simp only [Option.some.injEq, Prod.mk.injEq] at hstep
        rw [hrest, hstep.1]
      · rw [hg] at hstep
        simp only at hstep
        rcases hfix : fixOrderedPara p with _ | ⟨p2, anom⟩ | _
        · rw [hfix] at hstep
          simp only [Option.some.injEq, Prod.mk.injEq] at hstep
          rw [hrest, hstep.1]
        · rw [hfix] at hstep
          simp only [Option.some.injEq, Prod.mk.injEq] at hstep
          rw [hrest, ← hstep.1, getFrag_setFrag pp q f p2 hpp.1 hpp.2]
        · rw [hfix] at hstep
          exact Option.noConfusion hstep

theorem unorderedPass_frame2 (ff sym : String) (bf : Option Node) (q : Path)
    (pool : List Path) (f f2 : List Node) (kept2 : List Path)
    (hd : ∀ pp ∈ pool, pathPre pp q = false ∧ pathPre q pp = false)
    (he : unorderedPass ff sym bf f pool = (f2, kept2)) :
    getFrag f2 q = getFrag f q ∧ ∀ x ∈ kept2, x ∈ pool := by
  have h := unorderedPass_frame ff sym bf q pool f [] hd
  unfold unorderedPass at he
  rw [he] at h
  exact ⟨h.1, fun x hx => (h.2 x hx).resolve_left (by simp)⟩

theorem orderedPass_frame2 (q : Path) (pool : List Path) (f f2 : List Node)
    (c2 : Nat) (u2 : List String)
    (hd : ∀ pp ∈ pool, pathPre pp q = false ∧ pathPre q pp = false)
    (he : orderedPass f pool = some (f2, c2, u2)) :
    getFrag f2 q = getFrag f q := by
  refine orderedPass_frame q pool f 0 [] f2 c2 u2 hd ?_
  unfold orderedPass at he
  exact he

theorem repairListBugs_frame (frag : List Node) (q : Path) (res : RepairResult)
    (hdisj2 : ∀ pp ∈ findElemsFrag isCandidatePara frag,
      pathPre pp q = false ∧ pathPre q pp = false)
    (hres : repairListBugs frag = some res) :
    getFrag res.frag q = getFrag frag q := by
  unfold repairListBugs at hres
  simp only at hres
  rcases e1 : unorderedPass "Symbol" solidDotSymbol (some (scriptWrap dotEntity)) frag
      (findElemsFrag isCandidatePara frag) with ⟨f1, k1⟩
  rw [e1] at hres
  simp only at hres
  rcases e2 : unorderedPass "Wingdings" solidSquareSymbol (some (scriptWrap squareEntity))
      f1 k1 with ⟨f2, k2⟩
  rw [e2] at hres
  simp only at hres
  rcases e3 : unorderedPass "\"Courier New\"" letterOSymbol none f2 k2 with ⟨f3, k3⟩
  rw [e3] at hres
  simp only at hres
  have A1 := unorderedPass_frame2 "Symbol" solidDotSymbol (some (scriptWrap dotEntity)) q
    (findElemsFrag isCandidatePara frag) frag f1 k1 hdisj2 e1
  have hd1 : ∀ pp ∈ k1, pathPre pp q = false ∧ pathPre q pp = false :=
    fun pp hpp => hdisj2 pp (A1.2 pp hpp)
  have A2 := unorderedPass_frame2 "Wingdings" solidSquareSymbol
    (some (scriptWrap squareEntity)) q k1 f1 f2 k2 hd1 e2
  have hd2 : ∀ pp ∈ k2, pathPre pp q = false ∧ pathPre q pp = false :=
    fun pp hpp => hd1 pp (A2.2 pp hpp)
  have A3 := unorderedPass_frame2 "\"Courier New\"" letterOSymbol none q k2 f2 f3 k3 hd2 e3
  have hd3 : ∀ pp ∈ k3, pathPre pp q = false ∧ pathPre q pp = false :=
    fun pp hpp => hd2 pp (A3.2 pp hpp)
  rcases e4 : orderedPass f3 k3 with _ | ⟨f4, c4, u4⟩
  · rw [e4] at hres
    exact Option.noConfusion hres
  · rw [e4] at hres
    simp only [Option.some.injEq] at hres
    have A4 := orderedPass_frame2 q k3 f3 f4 c4 u4 hd3 e4
    rw [← hres]
    simp only
    rw [A4, A3.1, A2.1, A1.1]

/-- C9: a node of the body fragment that is not a candidate paragraph (its
class or style does not match the candidate pattern) is never selected into
the candidate pool, and, provided its path is unrelated to every candidate
path (no nesting between them), the whole list-repair engine leaves the
node at its path byte-identical. -/
theorem claim_C9 (frag : List Node) (q : Path) (n : Node) (res : RepairResult)
    (hq : getFrag frag q = some n)
    (hnc : isCandidatePara n = false)
    (hdisj : ∀ pp ∈ findElemsFrag isCandidatePara frag, pp ≠ q →
      pathPre pp q = false ∧ pathPre q pp = false)
    (hres : repairListBugs frag = some res) :
    q ∉ findElemsFrag isCandidatePara frag ∧ getFrag res.frag q = some n := by
  have hnotin : q ∉ findElemsFrag isCandidatePara frag := by
    intro hin
    obtain ⟨m, hm, hpm⟩ := findElemsFrag_sound isCandidatePara frag q hin
    rw [hq] at hm
    injection hm with hm2
    rw [← hm2] at hpm
    rw [hnc] at hpm
    exact Bool.noConfusion hpm
  have hdisj2 : ∀ pp ∈ findElemsFrag isCandidatePara frag,
      pathPre pp q = false ∧ pathPre q pp = false := by
    intro pp hpp
    by_cases he : pp = q
    · exact absurd (he ▸ hpp) hnotin
    · exact hdisj pp hpp he
  exact ⟨hnotin, by rw [repairListBugs_frame frag q res hdisj2 hres, hq]⟩

/-- Witness for C9 at a concrete fragment holding one candidate paragraph
(which the engine rewrites) and one non-candidate paragraph. -/
theorem claim_C9_witness :
    [1] ∉ findElemsFrag isCandidatePara
      [Node.elem "p"
        [("class", AttrVal.multi ["MsoNormal"]),
         ("style", AttrVal.str "margin-left:1.25in;text-indent:1.5in")]
        [Node.elem "span" [("style", AttrVal.str "font:7.0pt")]
          [Node.text (String.mk [Char.ofNat 160])],
         Node.text "1.",
         Node.elem "span" [("style", AttrVal.str "font:7.0pt")]
          [Node.text (String.mk [Char.ofNat 160])],
         Node.text "Item text"],
       Node.elem "p" [] [Node.text "plain paragraph"]] ∧
    (match repairListBugs
      [Node.elem "p"
        [("class", AttrVal.multi ["MsoNormal"]),
         ("style", AttrVal.str "margin-left:1.25in;text-indent:1.5in")]
        [Node.elem "span" [("style", AttrVal.str "font:7.0pt")]
          [Node.text (String.mk [Char.ofNat 160])],
         Node.text "1.",
         Node.elem "span" [("style", AttrVal.str "font:7.0pt")]
          [Node.text (String.mk [Char.ofNat 160])],
         Node.text "Item text"],
       Node.elem "p" [] [Node.text "plain paragraph"]] with
     | some res => getFrag res.frag [1]
     | none => none) = some (Node.elem "p" [] [Node.text "plain paragraph"]) := by
  rcases hres : repairListBugs
      [Node.elem "p"
        [("class", AttrVal.multi ["MsoNormal"]),
         ("style", AttrVal.str "margin-left:1.25in;text-indent:1.5in")]
        [Node.elem "span" [("style", AttrVal.str "font:7.0pt")]
          [Node.text (String.mk [Char.ofNat 160])],
         Node.text "1.",
         Node.elem "span" [("style", AttrVal.str "font:7.0pt")]
          [Node.text (String.mk [Char.ofNat 160])],
         Node.text "Item text"],
       Node.elem "p" [] [Node.text "plain paragraph"]] with _ | res
  · exact absurd hres (by decide)
  · have h := claim_C9 _ [1] (Node.elem "p" [] [Node.text "plain paragraph"]) res
      (by decide) (by decide) (by decide) hres
    exact ⟨h.1, by simp [h.2]⟩

theorem pathRun_length : ∀ (k i : Nat), (pathRun i k).length = k := by
  intro k
  induction k with
  | zero => intro i; rfl
  | succ k2 ih => intro i; simp [pathRun, ih]

theorem pathRun_append : ∀ (a i b : Nat), pathRun i (a + b) = pathRun i a ++ pathRun (i + a) b := by
  intro a
  induction a with
  | zero => intro i b; simp [pathRun]
  | succ a2 ih =>
    intro i b
    rw [show a2 + 1 + b = (a2 + b) + 1 from by omega]
    rw [pathRun, pathRun, ih (i + 1) b]
    simp only [List.cons_append, List.cons.injEq, true_and]
    rw [show i + 1 + a2 = i + (a2 + 1) from by omega]

theorem pathRun_mem : ∀ (k i : Nat) (pp : Path),
    pp ∈ pathRun i k ↔ ∃ j, j < k ∧ pp = [i + j] := by
  intro k
  induction k with
  | zero => intro i pp; simp [pathRun]
  | succ k2 ih =>
    intro i pp
    rw [pathRun]
    simp only [List.mem_cons, ih (i + 1) pp]
    constructor
    · rintro (h | ⟨j, hj, he⟩)
      · exact ⟨0, by omega, by simp [h]⟩
      · exact ⟨j + 1, by omega, by rw [he]; congr 1; omega⟩
    · rintro ⟨j, hj, he⟩
      cases j with
      | zero => exact Or.inl (by simp [he])
      | succ j2 =>
        refine Or.inr ⟨j2, by omega, ?_⟩
        rw [he]
        congr 1
        omega

theorem tw_all_app {α : Type} {p : α → Bool} {xs : List α} (h : ∀ x ∈ xs, p x = true)
    (ys : List α) :
    (xs ++ ys).takeWhile p = xs ++ ys.takeWhile p ∧ (xs ++ ys).dropWhile p = ys.dropWhile p := by
  induction xs with
  | nil => simp
  | cons d ds ih =>
    have hd := h d (by simp)
    have ihh := ih (fun x hx => h x (List.mem_cons_of_mem _ hx))
    constructor
    · simp only [List.cons_append, List.takeWhile_cons, hd, if_true]
      simp [ihh.1]
    · simp only [List.cons_append, List.dropWhile_cons, hd, if_true]
      exact ihh.2

theorem getFrag_singleton (ns : List Node) (j : Nat) : getFrag ns [j] = ns[j]? := by
  rcases hx : ns[j]? with _ | n <;> simp [getFrag, hx]

theorem getElem_append_mid : ∀ (pre : List Node) (m : Node) (r : List Node),
    (pre ++ m :: r)[pre.length]? = some m := by
  intro pre
  induction pre with
  | nil => intro m r; simp
  | cons n tl ih => intro m r; simpa using ih m r

theorem removeKid_mid : ∀ (pre : List Node) (m : Node) (r : List Node),
    removeKid (pre ++ m :: r) pre.length = pre ++ r := by
  intro pre
  induction pre with
  | nil => intro m r; rfl
  | cons n tl ih =>
    intro m r
    simp only [List.cons_append, List.length_cons, removeKid]
    exact congrArg (fun l => n :: l) (ih m r)

theorem findElemsKids_paras : ∀ (ns : List Node) (i : Nat),
    (∀ n ∈ ns, ∃ a s, n = Node.elem "p" a [Node.text s]) →
    findElemsKids isParaElem i ns = pathRun i ns.length := by
  intro ns
  induction ns with
  | nil => intro i _; rfl
  | cons n tl ih =>
    intro i h
    obtain ⟨a, s, he⟩ := h n (by simp)
    subst he
    rw [findElemsKids]
    rw [show findElemsNode isParaElem (Node.elem "p" a [Node.text s]) = [[]] from by
      simp [findElemsNode, findElemsKids, isParaElem]]
    rw [ih (i + 1) (fun x hx => h x (List.mem_cons_of_mem _ hx))]
    simp [pathRun]

theorem filterMap_getFrag_run : ∀ (mid pre post : List Node),
    (pathRun pre.length mid.length).filterMap
      (fun pp => getFrag (pre ++ (mid ++ post)) pp) = mid := by
  intro mid
  induction mid with
  | nil => intro pre post; simp [pathRun]
  | cons m mid2 ih =>
    intro pre post
    rw [show (m :: mid2).length = mid2.length + 1 from rfl, pathRun]
    rw [List.filterMap_cons]
    rw [show getFrag (pre ++ (m :: mid2 ++ post)) [pre.length] = some m from by
      rw [getFrag_singleton]
      exact getElem_append_mid pre m (mid2 ++ post)]
    have := ih (pre ++ [m]) post
    simp only [List.length_append, List.length_cons, List.length_nil, List.append_assoc,
      List.singleton_append] at this
    rw [show pre.length + 1 = pre.length + (0 + 1) from by omega] at this
    simp only [Nat.zero_add] at this
    simp only [List.cons_append]
    rw [this]

theorem removeFold_run : ∀ (mid pre post : List Node),
    (pathRun pre.length mid.length).foldr (fun pp f => removeFrag f pp)
      (pre ++ (mid ++ post)) = pre ++ post := by
  intro mid
  induction mid with
  | nil => intro pre post; simp [pathRun]
  | cons m mid2 ih =>
    intro pre post
    rw [show (m :: mid2).length = mid2.length + 1 from rfl, pathRun]
    rw [List.foldr_cons]
    have := ih (pre ++ [m]) post
    simp only [List.length_append, List.length_cons, List.length_nil, List.append_assoc,
      List.singleton_append] at this
    rw [show pre.length + 1 = pre.length + (0 + 1) from by omega] at this
    simp only [Nat.zero_add] at this
    simp only [List.cons_append]
    rw [this]
    rw [show removeFrag (pre ++ m :: post) [pre.length] =
      removeKid (pre ++ m :: post) pre.length from rfl]
    exact removeKid_mid pre m post

theorem foldSib_id (frag : List Node) : ∀ (l : List Path),
    (∀ pp ∈ l, nlSiblingPath frag pp = none) →
    l.foldr (fun pp acc => pp :: (sibExtend frag pp ++ acc)) [] = l := by
  intro l
  induction l with
  | nil => intro _; rfl
  | cons pp tl ih =>
    intro h
    simp only [List.foldr_cons, ih (fun x hx => h x (List.mem_cons_of_mem _ hx))]
    simp [sibExtend, h pp (by simp)]

/-- C4 counterexample: a body consisting of one whitespace-only paragraph
and no TOC paragraph yields an empty TOC and a body in which the
whitespace-only paragraph is NOT destroyed: when no TOC paragraph is found
the extraction returns before decomposing the leading empty paragraphs. -/
theorem claim_C4_counterexample :
    extractToc [Node.elem "p" [] [Node.text " "]] =
      ⟨[Node.elem "p" [] [Node.text " "]], [], 1, 0⟩ ∧
    ([Node.elem "p" [] [Node.text " "]] : List Node) ≠ [] := by
  refine ⟨by decide, by decide⟩

/-- C4 as amended: on a flat body of N whitespace-only paragraphs, M
TOC-classed paragraphs and a trailing non-matching paragraph, the
extraction with M at least one extracts exactly the M TOC paragraphs into
the TOC fragment, destroys the N whitespace-only paragraphs and leaves only
the trailing paragraph; with M equal to zero the TOC fragment is empty and
the body is returned completely unmodified, the whitespace-only paragraphs
included — the original claim that they are stripped in that case is
refuted by claim_C4_counterexample. -/
theorem claim_C4 (es ts : List Node) (sstop : String)
    (hes : ∀ e ∈ es, ∃ a s, e = Node.elem "p" a [Node.text s] ∧ wsStringSearch s = true)
    (hts : ∀ e ∈ ts, ∃ c kid, e = Node.elem "p" [("class", AttrVal.multi [c])]
      [Node.text kid] ∧ msoTocClassMatch c = true ∧ wsStringSearch kid = false)
    (hstop : wsStringSearch sstop = false) :
    (ts ≠ [] → extractToc (es ++ (ts ++ [Node.elem "p" [] [Node.text sstop]])) =
      ⟨[Node.elem "p" [] [Node.text sstop]], ts, es.length, ts.length⟩) ∧
    extractToc (es ++ [Node.elem "p" [] [Node.text sstop]]) = ⟨(es ++ [Node.elem "p" [] [Node.text sstop]]), [], es.length, 0⟩ := by
  constructor
  · intro hne
    have hshape : ∀ n ∈ (es ++ (ts ++ [Node.elem "p" [] [Node.text sstop]])), ∃ a s, n = Node.elem "p" a [Node.text s] := by
      intro n hn
      rcases List.mem_append.mp hn with h | h
      · obtain ⟨a, s, he, _⟩ := hes n h
        exact ⟨a, s, he⟩
      · rcases List.mem_append.mp h with h | h
        · obtain ⟨c, kid, he, _, _⟩ := hts n h
          exact ⟨[("class", AttrVal.multi [c])], kid, he⟩
        · simp only [List.mem_singleton] at h
          exact ⟨[], sstop, h⟩
    have hparas : findElemsFrag isParaElem (es ++ (ts ++ [Node.elem "p" [] [Node.text sstop]]))
        = pathRun 0 (es.length + (ts.length + 1)) := by
      unfold findElemsFrag
      rw [findElemsKids_paras _ 0 hshape]
      simp
    have hlookE : ∀ j, j < es.length → (es ++ (ts ++ [Node.elem "p" [] [Node.text sstop]]))[j]? = es[j]? := by
      intro j hj
      rw [List.getElem?_append_left hj]
    have hlookT : ∀ j, j < ts.length → (es ++ (ts ++ [Node.elem "p" [] [Node.text sstop]]))[es.length + j]? = ts[j]? := by
      intro j hj
      rw [List.getElem?_append_right (by omega)]
      rw [show es.length + j - es.length = j from by omega]
      rw [List.getElem?_append_left hj]
    have hlookS : (es ++ (ts ++ [Node.elem "p" [] [Node.text sstop]]))[es.length + ts.length]? = some (Node.elem "p" [] [Node.text sstop]) := by
      rw [show (es ++ (ts ++ [Node.elem "p" [] [Node.text sstop]])) = (es ++ ts) ++ (Node.elem "p" [] [Node.text sstop]) :: [] from by simp]
      rw [show es.length + ts.length = (es ++ ts).length from by simp]
      exact getElem_append_mid (es ++ ts) _ []
    have hempT : ∀ pp ∈ pathRun 0 es.length, isEmptyParaAt (es ++ (ts ++ [Node.elem "p" [] [Node.text sstop]])) pp = true := by
      intro pp hpp
      obtain ⟨j, hj, he⟩ := (pathRun_mem _ _ _).mp hpp
      subst he
      simp only [Nat.zero_add]
      have hx : es[j]? = some es[j] := List.getElem?_eq_getElem hj
      obtain ⟨a, s, hsh, hws⟩ := hes es[j] (List.getElem_mem hj)
      simp [isEmptyParaAt, getFrag_singleton, hlookE j hj, hx, hsh, nodeString, hws]
    have hempN : isEmptyParaAt (es ++ (ts ++ [Node.elem "p" [] [Node.text sstop]])) [es.length] = false := by
      have h0 : 0 < ts.length := List.length_pos.mpr hne
      have hx : (es ++ (ts ++ [Node.elem "p" [] [Node.text sstop]]))[es.length]? = some ts[0] := by
        have h1 := hlookT 0 h0
        have h2 : ts[0]? = some ts[0] := List.getElem?_eq_getElem h0
        rw [show es.length + 0 = es.length from by omega] at h1
        rw [h1, h2]
      obtain ⟨c, kid, hsh, _, hkid⟩ := hts ts[0] (List.getElem_mem h0)
      simp [isEmptyParaAt, getFrag_singleton, hx, hsh, nodeString, hkid]
    have htocT : ∀ pp ∈ pathRun es.length ts.length, isTocParaAt (es ++ (ts ++ [Node.elem "p" [] [Node.text sstop]])) pp = true := by
      intro pp hpp
      obtain ⟨j, hj, he⟩ := (pathRun_mem _ _ _).mp hpp
      subst he
      have hx : ts[j]? = some ts[j] := List.getElem?_eq_getElem hj
      obtain ⟨c, kid, hsh, hc, _⟩ := hts ts[j] (List.getElem_mem hj)
      simp [isTocParaAt, getFrag_singleton, hlookT j hj, hx, hsh, getAttr, hc]
    have htocF : isTocParaAt (es ++ (ts ++ [Node.elem "p" [] [Node.text sstop]])) [es.length + ts.length] = false := by
      simp [isTocParaAt, getFrag_singleton, hlookS, getAttr]
    have hsib : ∀ pp ∈ pathRun es.length ts.length,
        nlSiblingPath (es ++ (ts ++ [Node.elem "p" [] [Node.text sstop]])) pp = none := by
      intro pp hpp
      obtain ⟨j, hj, he⟩ := (pathRun_mem _ _ _).mp hpp
      subst he
      have helem : ∃ t2 a2 cs2,
          (es ++ (ts ++ [Node.elem "p" [] [Node.text sstop]]))[es.length + j + 1]? = some (Node.elem t2 a2 cs2) := by
        by_cases hj2 : j + 1 < ts.length
        · have hx := hlookT (j + 1) hj2
          have h2 : ts[j + 1]? = some ts[j + 1] := List.getElem?_eq_getElem hj2
          obtain ⟨c, kid, hsh, _, _⟩ := hts ts[j + 1] (List.getElem_mem hj2)
          refine ⟨"p", [("class", AttrVal.multi [c])], [Node.text kid], ?_⟩
          rw [show es.length + j + 1 = es.length + (j + 1) from by omega, hx, h2, hsh]
        · refine ⟨"p", [], [Node.text sstop], ?_⟩
          rw [show es.length + j + 1 = es.length + ts.length from by omega, hlookS]
      obtain ⟨t2, a2, cs2, hx⟩ := helem
      simp [nlSiblingPath, getFrag_singleton, hx]
    have hsplit1 : pathRun 0 (es.length + (ts.length + 1)) =
        pathRun 0 es.length ++ pathRun es.length (ts.length + 1) := by
      have := pathRun_append es.length 0 (ts.length + 1)
      simpa using this
    have hsplit2 : pathRun es.length (ts.length + 1) =
        pathRun es.length ts.length ++ [[es.length + ts.length]] := by
      have := pathRun_append ts.length es.length 1
      simpa [pathRun] using this
    have hEmptyRun : (pathRun 0 (es.length + (ts.length + 1))).takeWhile
        (fun pp => isEmptyParaAt (es ++ (ts ++ [Node.elem "p" [] [Node.text sstop]])) pp) = pathRun 0 es.length := by
      rw [hsplit1, (tw_all_app hempT _).1]
      rw [show pathRun es.length (ts.length + 1)
        = [es.length] :: pathRun (es.length + 1) ts.length from rfl]
      rw [List.takeWhile_cons]
      simp [hempN]
    have hTocRun : ((pathRun 0 es.length ++ pathRun es.length (ts.length + 1)).drop
        (pathRun 0 es.length).length).takeWhile (fun pp => isTocParaAt (es ++ (ts ++ [Node.elem "p" [] [Node.text sstop]])) pp)
        = pathRun es.length ts.length := by
      rw [List.drop_left]
      rw [hsplit2, (tw_all_app htocT _).1]
      simp [List.takeWhile_cons, htocF]
    have hMoved : (pathRun es.length ts.length).foldr
        (fun pp acc => pp :: (sibExtend (es ++ (ts ++ [Node.elem "p" [] [Node.text sstop]])) pp ++ acc)) []
        = pathRun es.length ts.length := foldSib_id _ _ hsib
    have hNodes : (pathRun es.length ts.length).filterMap
        (fun pp => getFrag (es ++ (ts ++ [Node.elem "p" [] [Node.text sstop]])) pp) = ts := filterMap_getFrag_run ts es [Node.elem "p" [] [Node.text sstop]]
    have hRemoved : (pathRun 0 es.length ++ pathRun es.length ts.length).foldr
        (fun pp f => removeFrag f pp) (es ++ (ts ++ [Node.elem "p" [] [Node.text sstop]])) = [Node.elem "p" [] [Node.text sstop]] := by
      rw [show pathRun 0 es.length ++ pathRun es.length ts.length
        = pathRun 0 (es.length + ts.length) from by
          have := pathRun_append es.length 0 ts.length
          simpa using this.symm]
      have := removeFold_run (es ++ ts) [] [Node.elem "p" [] [Node.text sstop]]
      simpa using this
    unfold extractToc
    simp only []
    rw [hparas, hEmptyRun, hsplit1, hTocRun]
    rw [pathRun_length ts.length es.length, pathRun_length es.length 0]
    rw [if_neg (by simpa using hne)]
    rw [hMoved, hNodes, hRemoved]
  · have hshape : ∀ n ∈ (es ++ [Node.elem "p" [] [Node.text sstop]]), ∃ a s, n = Node.elem "p" a [Node.text s] := by
      intro n hn
      rcases List.mem_append.mp hn with h | h
      · obtain ⟨a, s, he, _⟩ := hes n h
        exact ⟨a, s, he⟩
      · simp only [List.mem_singleton] at h
        exact ⟨[], sstop, h⟩
    have hparas : findElemsFrag isParaElem (es ++ [Node.elem "p" [] [Node.text sstop]])
        = pathRun 0 (es.length + 1) := by
      unfold findElemsFrag
      rw [findElemsKids_paras _ 0 hshape]
      simp
    have hlookE : ∀ j, j < es.length → (es ++ [Node.elem "p" [] [Node.text sstop]])[j]? = es[j]? := by
      intro j hj
      rw [List.getElem?_append_left hj]
    have hlookS : (es ++ [Node.elem "p" [] [Node.text sstop]])[es.length]? = some (Node.elem "p" [] [Node.text sstop]) := by
      rw [show (es ++ [Node.elem "p" [] [Node.text sstop]]) = es ++ (Node.elem "p" [] [Node.text sstop]) :: [] from by simp]
      exact getElem_append_mid es _ []
    have hempT : ∀ pp ∈ pathRun 0 es.length, isEmptyParaAt (es ++ [Node.elem "p" [] [Node.text sstop]]) pp = true := by
      intro pp hpp
      obtain ⟨j, hj, he⟩ := (pathRun_mem _ _ _).mp hpp
      subst he
      simp only [Nat.zero_add]
      have hx : es[j]? = some es[j] := List.getElem?_eq_getElem hj
      obtain ⟨a, s, hsh, hws⟩ := hes es[j] (List.getElem_mem hj)
      simp [isEmptyParaAt, getFrag_singleton, hlookE j hj, hx, hsh, nodeString, hws]
    have hempN : isEmptyParaAt (es ++ [Node.elem "p" [] [Node.text sstop]]) [es.length] = false := by
      simp [isEmptyParaAt, getFrag_singleton, hlookS, nodeString, hstop]
    have htocF : isTocParaAt (es ++ [Node.elem "p" [] [Node.text sstop]]) [es.length] = false := by
      simp [isTocParaAt, getFrag_singleton, hlookS, getAttr]
    have hsplit1 : pathRun 0 (es.length + 1) =
        pathRun 0 es.length ++ pathRun es.length 1 := by
      have := pathRun_append es.length 0 1
      simpa using this
    have hEmptyRun : (pathRun 0 (es.length + 1)).takeWhile
        (fun pp => isEmptyParaAt (es ++ [Node.elem "p" [] [Node.text sstop]]) pp) = pathRun 0 es.length := by
      rw [hsplit1, (tw_all_app hempT _).1]
      rw [show pathRun es.length 1 = [[es.length]] from rfl]
      rw [List.takeWhile_cons]
      simp [hempN]
    have hTocRun : ((pathRun 0 es.length ++ pathRun es.length 1).drop
        (pathRun 0 es.length).length).takeWhile (fun pp => isTocParaAt (es ++ [Node.elem "p" [] [Node.text sstop]]) pp)
        = [] := by
      rw [List.drop_left]
      rw [show pathRun es.length 1 = [[es.length]] from rfl]
      rw [List.takeWhile_cons]
      simp [htocF]
    unfold extractToc
    simp only []
    rw [hparas, hEmptyRun, hsplit1, hTocRun]
    rw [pathRun_length es.length 0]
    simp

/-- Witness for C4 at one whitespace paragraph, one TOC paragraph and a
trailing plain paragraph. -/
theorem claim_C4_witness :
    extractToc [Node.elem "p" [] [Node.text " "],
      Node.elem "p" [("class", AttrVal.multi ["MsoToc1"])] [Node.text "Heading 1"],
      Node.elem "p" [] [Node.text "body"]] =
      ⟨[Node.elem "p" [] [Node.text "body"]],
       [Node.elem "p" [("class", AttrVal.multi ["MsoToc1"])] [Node.text "Heading 1"]],
       1, 1⟩ ∧
    extractToc [Node.elem "p" [] [Node.text " "], Node.elem "p" [] [Node.text "body"]] =
      ⟨[Node.elem "p" [] [Node.text " "], Node.elem "p" [] [Node.text "body"]], [], 1, 0⟩ := by
  have h := claim_C4 [Node.elem "p" [] [Node.text " "]]
    [Node.elem "p" [("class", AttrVal.multi ["MsoToc1"])] [Node.text "Heading 1"]]
    "body"
    (by
      intro e he
      simp only [List.mem_singleton] at he
      exact ⟨[], " ", he, by decide⟩)
    (by
      intro e he
      simp only [List.mem_singleton] at he
      exact ⟨"MsoToc1", "Heading 1", he, by decide, by decide⟩)
    (by decide)
  exact ⟨h.1 (by decide), h.2⟩

end WWN
